import Mathlib

/-!
Verification of the parentheses-removal pipeline: a tokenizer, Dijkstra's
shunting-yard conversion to reverse-Polish order, and a restorer that
rebuilds an infix string with minimal parentheses.  The definitions below
are a shallow embedding of the three Python functions `tokenize`, `shunt`
and `restore` and of the top-level `remove_unnecessary_parentheses`.
Because `restore` is a `while` loop whose index does not always advance,
its embedding is fuel-indexed and returns `none` when the fuel runs out
(and on the empty-list indexing error of the source).
-/

namespace ParenRemoval

/-- Membership in the `operator_info` table: the five operator symbols. -/
def isOpT (s : String) : Bool :=
  s = "+" || s = "-" || s = "*" || s = "/" || s = "^"

/-- Precedence column of `operator_info` (`+ -` ↦ 0, `* /` ↦ 1, `^` ↦ 2). -/
def prec (s : String) : Nat :=
  if s = "+" || s = "-" then 0
  else if s = "*" || s = "/" then 1
  else 2

/-- Associativity values of the operator table. -/
inductive Assoc where
  | left
  | right
deriving DecidableEq, Repr

/-- Associativity column of `operator_info` (`^` is RIGHT, the rest LEFT). -/
def assocOf (s : String) : Assoc :=
  if s = "^" then Assoc.right else Assoc.left

/-- Classification state of the tokenizer (`State` in the source). -/
inductive TState where
  | unknown
  | operand
  | opSt
deriving DecidableEq, Repr

/-- Characters that are operator symbols. -/
def isOpChar (c : Char) : Bool :=
  c = '+' || c = '-' || c = '*' || c = '/' || c = '^'

/-- Whitespace characters removed by the source's `re.sub` preprocessing. -/
def isWs (c : Char) : Bool :=
  c = ' ' || c = '\t' || c = '\n' || c = '\r' || c = Char.ofNat 11 || c = Char.ofNat 12

/-- Flush the accumulation buffer: `output.append(buf) if buf != "" else False`. -/
def flushTok (buf : String) (out : List String) : List String :=
  if buf = "" then out else out ++ [buf]

/-- The character-scanning loop of `tokenize`, over the cleaned character
list, carrying the classification state, the buffer and the output. -/
def tokenizeAux : List Char → TState → String → List String → List String
  | [], _, buf, out => flushTok buf out
  | c :: cs, st, buf, out =>
    if c = '(' || c = ')' then
      tokenizeAux cs st "" (flushTok buf out ++ [String.mk [c]])
    else if isOpChar c then
      tokenizeAux cs
        (if c = '-' && (st = TState.opSt || st = TState.unknown)
         then TState.operand else TState.opSt)
        (String.mk [c]) (flushTok buf out)
    else if st ≠ TState.operand then
      tokenizeAux cs TState.operand (String.mk [c]) (flushTok buf out)
    else
      tokenizeAux cs TState.operand (buf.push c) out

/-- `tokenize`: strip whitespace, then scan starting in the UNKNOWN state. -/
def tokenize (s : String) : List String :=
  tokenizeAux (s.data.filter (fun c => !isWs c)) TState.unknown "" []

/-- Pop condition of the shunting-yard operator case: the stack top is not
`(` and has greater precedence, or equal precedence with LEFT associativity. -/
def shuntPops (cur top : String) : Bool :=
  top ≠ "(" && (prec top > prec cur ||
    (prec top = prec cur && assocOf top = Assoc.left))

/-- Inner `while` of the operator case of `shunt`: operators popped to the
output (in order) and the remaining stack.  The stack's top is the head. -/
def popOps (cur : String) : List String → List String × List String
  | [] => ([], [])
  | top :: rest =>
    if shuntPops cur top then
      ((popOps cur rest).1.cons top, (popOps cur rest).2)
    else ([], top :: rest)

/-- Inner `while` of the `)` case of `shunt`: pop to the output until the
top is `(` or the stack is empty. -/
def popToParen : List String → List String × List String
  | [] => ([], [])
  | top :: rest =>
    if top = "(" then ([], top :: rest)
    else ((popToParen rest).1.cons top, (popToParen rest).2)

/-- Discard a `(` left on top of the stack after the `)` case, if present. -/
def dropParen : List String → List String
  | "(" :: rest => rest
  | ops => ops

/-- The token loop of `shunt`, carrying the operator stack (top at the
head) and the output list; at the end the remaining stack contents are
appended to the output in LIFO order. -/
def shuntAux : List String → List String → List String → List String
  | [], ops, out => out ++ ops
  | t :: ts, ops, out =>
    if isOpT t then
      shuntAux ts (t :: (popOps t ops).2) (out ++ (popOps t ops).1)
    else if t = "(" then
      shuntAux ts (t :: ops) out
    else if t = ")" then
      shuntAux ts (dropParen (popToParen ops).2) (out ++ (popToParen ops).1)
    else
      shuntAux ts ops (out ++ [t])

/-- `shunt`: run the token loop with empty stack and empty output. -/
def shunt (tokens : List String) : List String :=
  shuntAux tokens [] []

/-- Annotated sub-expression of the restorer: the infix text and the
pivotal operator (`""` for a bare operand). -/
structure Entry where
  text : String
  pivot : String
deriving DecidableEq, Repr

/-- A fresh entry for a postfix token, with the dummy pivot `""`. -/
def mkEntry (t : String) : Entry :=
  { text := t, pivot := "" }

/-- Left-operand rendering rule of `restore`: parenthesize when the left
entry has a pivot of strictly lower precedence than the current operator. -/
def wrapL (op : String) (L : Entry) : String :=
  if L.pivot ≠ "" && prec op > prec L.pivot then
    "(" ++ L.text ++ ")"
  else L.text

/-- Right-operand rendering rule of `restore`: parenthesize when the right
entry has a pivot of strictly lower precedence, or of equal precedence
while the current operator is `/` or `-`. -/
def wrapR (op : String) (R : Entry) : String :=
  if R.pivot ≠ "" then
    if prec op > prec R.pivot ||
        (prec op = prec R.pivot && (op = "/" || op = "-")) then
      "(" ++ R.text ++ ")"
    else R.text
  else R.text

/-- Collapse one operator with its two operand entries into a new entry
whose pivot is that operator. -/
def collapseE (op : String) (L R : Entry) : Entry :=
  { text := wrapL op L ++ op ++ wrapR op R, pivot := op }

/-- The working list and scan index of `restore`'s loop. -/
structure RState where
  entries : List Entry
  idx : Nat
deriving DecidableEq, Repr

/-- One iteration of `restore`'s `while` body: an operator entry with at
least two predecessors is collapsed (splicing the list and moving the index
back by two); an operator entry with index `< 2` leaves the state unchanged;
any other entry advances the index. -/
def rstep (s : RState) : RState :=
  match s.entries[s.idx]? with
  | none => s
  | some e =>
    if isOpT e.text then
      if 2 ≤ s.idx then
        match s.entries[s.idx - 2]?, s.entries[s.idx - 1]? with
        | some L, some R =>
          { entries := s.entries.take (s.idx - 2)
              ++ [collapseE e.text L R] ++ s.entries.drop (s.idx + 1),
            idx := s.idx - 2 }
        | _, _ => s
      else s
    else { entries := s.entries, idx := s.idx + 1 }

/-- Fuel-indexed run of `restore`'s loop; `none` when the fuel is exhausted
before the index reaches the end of the working list. -/
def runRestore : Nat → RState → Option RState
  | 0, _ => none
  | fuel + 1, s =>
    if s.idx < s.entries.length then runRestore fuel (rstep s)
    else some s

/-- Initial working list of `restore`: one fresh entry per postfix token. -/
def initState (pf : List String) : RState :=
  { entries := pf.map mkEntry, idx := 0 }

/-- `restore`, fuel-indexed: run the loop, then return the text of the
first entry; `none` models both fuel exhaustion (the source loops forever)
and the indexing error on an empty working list. -/
def restoreF (fuel : Nat) (pf : List String) : Option String :=
  match runRestore fuel (initState pf) with
  | none => none
  | some s =>
    match s.entries with
    | [] => none
    | e :: _ => some e.text

/-- The top-level pipeline `remove_unnecessary_parentheses`, fuel-indexed
through its `restore` stage. -/
def remove_unnecessary_parentheses (fuel : Nat) (s : String) : Option String :=
  restoreF fuel (shunt (tokenize s))

/-- One token of the standard two-operand stack machine: operands push a
fresh entry, operators collapse the two topmost entries (the stack's top is
the head); `none` signals underflow. -/
def machineStep (t : String) (stack : List Entry) : Option (List Entry) :=
  if isOpT t then
    match stack with
    | R :: L :: rest => some (collapseE t L R :: rest)
    | _ => none
  else some (mkEntry t :: stack)

/-- The stack machine run over a postfix token list, collapsing entries
exactly as the restorer does. -/
def machineRun : List Entry → List String → Option (List Entry)
  | stack, [] => some stack
  | stack, t :: ts =>
    match machineStep t stack with
    | none => none
    | some stack2 => machineRun stack2 ts

/-- Concatenation of a token list, for the tokenizer's reconstruction
guarantee. -/
def catTokens : List String → String
  | [] => ""
  | t :: ts => t ++ catTokens ts

example : tokenize "1+2 * (3-4)" =
    ["1", "+", "2", "*", "(", "3", "-", "4", ")"] := by decide

example : shunt ["1", "+", "2", "*", "3"] = ["1", "2", "3", "*", "+"] := by decide

/-- Unfolding of one funded iteration while the loop guard holds. -/
theorem runRestore_succ (fuel : Nat) (s : RState) (h : s.idx < s.entries.length) :
    runRestore (fuel + 1) s = runRestore fuel (rstep s) := by
  rw [runRestore, if_pos h]

/-- Giving the loop more fuel cannot change a result it already reaches. -/
theorem runRestore_mono :
    ∀ (f f' : Nat) (s r : RState), f ≤ f' →
      runRestore f s = some r → runRestore f' s = some r := by
  intro f
  induction f with
  | zero =>
    intro f' s r _ h
    exact absurd h (by simp [runRestore])
  | succ n ih =>
    intro f' s r hle h
    obtain ⟨m, rfl⟩ : ∃ m, f' = m + 1 := ⟨f' - 1, by omega⟩
    rw [runRestore] at h ⊢
    by_cases hc : s.idx < s.entries.length
    · rw [if_pos hc] at h ⊢
      exact ih m (rstep s) r (by omega) h
    · rw [if_neg hc] at h ⊢
      exact h

/-- Fuel monotonicity, lifted to the `restore` wrapper. -/
theorem restoreF_mono (f f' : Nat) (pf : List String) (r : String) (hle : f ≤ f')
    (h : restoreF f pf = some r) : restoreF f' pf = some r := by
  unfold restoreF at h ⊢
  cases hrun : runRestore f (initState pf) with
  | none => rw [hrun] at h; exact absurd h (by simp)
  | some s => rw [hrun] at h; rw [runRestore_mono f f' (initState pf) s hle hrun]; exact h

/-- Fuel monotonicity, lifted to the whole pipeline. -/
theorem rup_mono (f f' : Nat) (s : String) (r : String) (hle : f ≤ f')
    (h : remove_unnecessary_parentheses f s = some r) :
    remove_unnecessary_parentheses f' s = some r :=
  restoreF_mono f f' (shunt (tokenize s)) r hle h

/-- C1 — the claimed semantic equivalence is the code's intent but the code
breaks it: on the valid expression "(2^3)^2" the pipeline outputs "2^3^2",
and re-tokenizing and re-converting that output yields the postfix sequence
2 3 2 ^ ^, not the input's postfix sequence 2 3 ^ 2 ^ — the left-wrap rule
of the restorer never parenthesizes an equal-precedence left operand, so the
right-associative `^` changes evaluation order. -/
theorem rup_C1_semantic_equivalence_bug :
    shunt (tokenize "(2^3)^2") = ["2", "3", "^", "2", "^"] ∧
    remove_unnecessary_parentheses 100 "(2^3)^2" = some "2^3^2" ∧
    shunt (tokenize "2^3^2") = ["2", "3", "2", "^", "^"] ∧
    shunt (tokenize "2^3^2") ≠ shunt (tokenize "(2^3)^2") := by
  refine ⟨by decide, by decide, by decide, by decide⟩

/-- C5 — the pipeline maps each literal example of the spec's section 8 to
its stated output (for any fuel at least 100): in particular
"1*(2+(3*(4+5)))" yields "1*(2+3*(4+5))" and "7+12/(4*2)" is returned
unchanged because precedence requires its parentheses. -/
theorem rup_C5_concrete_scenarios (fuel : Nat) (hf : 100 ≤ fuel) :
    remove_unnecessary_parentheses fuel "1 +  (2 * 3)" = some "1+2*3" ∧
    remove_unnecessary_parentheses fuel "1*(2+(3*(4+5)))" = some "1*(2+3*(4+5))" ∧
    remove_unnecessary_parentheses fuel "2 + (3 / -5)" = some "2+3/-5" ∧
    remove_unnecessary_parentheses fuel "-2 + (3 - 2) - 2* 3" = some "-2+3-2-2*3" ∧
    remove_unnecessary_parentheses fuel "7+12/(4*2)" = some "7+12/(4*2)" ∧
    remove_unnecessary_parentheses fuel "(x1+y1)*(x2*y2-(x3*y3))"
      = some "(x1+y1)*(x2*y2-x3*y3)" := by
  refine ⟨?_, ?_, ?_, ?_, ?_, ?_⟩ <;>
    exact rup_mono 100 fuel _ _ hf (by decide)

/-- Witness for C5 at the concrete fuel 100. -/
theorem rup_C5_concrete_scenarios_witness :
    remove_unnecessary_parentheses 100 "1 +  (2 * 3)" = some "1+2*3" ∧
    remove_unnecessary_parentheses 100 "7+12/(4*2)" = some "7+12/(4*2)" :=
  ⟨(rup_C5_concrete_scenarios 100 (by decide)).1,
   (rup_C5_concrete_scenarios 100 (by decide)).2.2.2.2.1⟩

/-- C6 — the `)` case of the converter pops operators to the output until
the stack top is `(` (then discarded, not emitted) or the stack is empty; an
unmatched `)` that empties the stack raises no error; and after all tokens
are consumed the remaining stack contents, including any unmatched `(`, are
appended to the output in LIFO order (the stack's top is the list head in
this embedding). -/
theorem shunt_C6_unmatched_paren_tolerance :
    (∀ ops : List String, popToParen ops =
        (ops.takeWhile (fun t => t != "("), ops.dropWhile (fun t => t != "("))) ∧
    (∀ ts ops out, shuntAux (")" :: ts) ops out =
        shuntAux ts (dropParen (ops.dropWhile (fun t => t != "(")))
          (out ++ ops.takeWhile (fun t => t != "("))) ∧
    (∀ rest : List String, dropParen ("(" :: rest) = rest) ∧
    (∀ ops out : List String, shuntAux [] ops out = out ++ ops) ∧
    shunt [")", "1", "+", "2"] = ["1", "2", "+"] ∧
    shunt ["(", "1", "+", "2"] = ["1", "2", "+", "("] := by
  have hpop : ∀ ops : List String, popToParen ops =
      (ops.takeWhile (fun t => t != "("), ops.dropWhile (fun t => t != "(")) := by
    intro ops
    induction ops with
    | nil => rfl
    | cons t rest ih =>
      by_cases h : t = "("
      · subst h
        simp [popToParen, List.takeWhile, List.dropWhile]
      · have hb : (t != "(") = true := by simp [h]
        simp [popToParen, h, List.takeWhile, List.dropWhile, ih, hb]
  refine ⟨hpop, ?_, fun rest => rfl, fun ops out => rfl, by decide, by decide⟩
  intro ts ops out
  show (if isOpT ")" = true then _ else _) = _
  rw [if_neg (by decide), if_neg (by decide), if_pos rfl, hpop]

/-- C7 — a `-` met while the tokenizer's state is OPERATOR or UNKNOWN starts
a new operand buffer containing `-` and sets the state to OPERAND, so
following non-operator characters merge into one token such as "-2" or
"-x"; a `-` met in state OPERAND becomes a standalone binary operator
buffer (state OPERATOR); and `+` never merges: it always starts an operator
buffer regardless of state. -/
theorem tokenize_C7_unary_minus :
    (∀ (cs : List Char) (buf : String) (out : List String) (st : TState),
        st = TState.opSt ∨ st = TState.unknown →
        tokenizeAux ('-' :: cs) st buf out
          = tokenizeAux cs TState.operand "-" (flushTok buf out)) ∧
    (∀ (cs : List Char) (buf : String) (out : List String),
        tokenizeAux ('-' :: cs) TState.operand buf out
          = tokenizeAux cs TState.opSt "-" (flushTok buf out)) ∧
    (∀ (cs : List Char) (buf : String) (out : List String) (c : Char),
        isOpChar c = false → c ≠ '(' → c ≠ ')' →
        tokenizeAux (c :: cs) TState.operand buf out
          = tokenizeAux cs TState.operand (buf.push c) out) ∧
    (∀ (cs : List Char) (buf : String) (out : List String) (st : TState),
        tokenizeAux ('+' :: cs) st buf out
          = tokenizeAux cs TState.opSt "+" (flushTok buf out)) ∧
    tokenize "-2+3" = ["-2", "+", "3"] ∧
    tokenize "1-2" = ["1", "-", "2"] ∧
    tokenize "+2" = ["+", "2"] ∧
    tokenize "2+-x" = ["2", "+", "-x"] := by
  refine ⟨?_, ?_, ?_, ?_, by decide, by decide, by decide, by decide⟩
  · intro cs buf out st hst
    rcases hst with h | h <;> subst h <;> rfl
  · intro cs buf out
    rfl
  · intro cs buf out c hop h1 h2
    show (if (c = '(' || c = ')') = true then _ else _) = _
    rw [if_neg (by simp [h1, h2]), if_neg (by simp [hop]), if_neg (by simp)]
  · intro cs buf out st
    cases st <;> rfl

/-- Witness for C7: the unary-minus step applied in the UNKNOWN state and
the merge step applied to a following digit. -/
theorem tokenize_C7_unary_minus_witness :
    tokenizeAux ['-', '2'] TState.unknown "" []
      = tokenizeAux ['2'] TState.operand "-" (flushTok "" []) ∧
    tokenizeAux ['2'] TState.operand "-" []
      = tokenizeAux [] TState.operand (String.push "-" '2') [] :=
  ⟨tokenize_C7_unary_minus.1 ['2'] "" [] TState.unknown (Or.inr rfl),
   tokenize_C7_unary_minus.2.2.1 [] "-" [] '2' (by decide) (by decide) (by decide)⟩

/-- The concatenation of a singleton-appended token list. -/
theorem catTokens_data_append (xs : List String) (b : String) :
    (catTokens (xs ++ [b])).data = (catTokens xs).data ++ b.data := by
  induction xs with
  | nil => simp [catTokens]
  | cons t ts ih => simp [catTokens, ih]

/-- Flushing the buffer appends exactly the buffer's characters. -/
theorem catTokens_flush (buf : String) (out : List String) :
    (catTokens (flushTok buf out)).data = (catTokens out).data ++ buf.data := by
  unfold flushTok
  by_cases h : buf = ""
  · subst h
    simp
  · rw [if_neg h, catTokens_data_append]

/-- Invariant of the scanning loop: the emitted tokens, the buffer and the
unread characters always concatenate to the cleaned input. -/
theorem tokenizeAux_cat (cs : List Char) :
    ∀ (st : TState) (buf : String) (out : List String),
      (catTokens (tokenizeAux cs st buf out)).data
        = (catTokens out).data ++ buf.data ++ cs := by
  induction cs with
  | nil =>
    intro st buf out
    simp [tokenizeAux, catTokens_flush]
  | cons c cs ih =>
    intro st buf out
    show (catTokens (if (c = '(' || c = ')') = true then _ else _)).data = _
    by_cases h1 : (c = '(' || c = ')') = true
    · rw [if_pos h1, ih, catTokens_data_append, catTokens_flush]
      simp
    · rw [if_neg h1]
      by_cases h2 : isOpChar c = true
      · rw [if_pos h2, ih, catTokens_flush]
        simp
      · rw [if_neg h2]
        by_cases h3 : st ≠ TState.operand
        · rw [if_pos h3, ih, catTokens_flush]
          simp
        · rw [if_neg h3, ih]
          simp

/-- C8 — concatenating the tokens of `tokenize` in order reconstructs the
input string with all whitespace removed: no character is lost, duplicated
or reordered. -/
theorem tokenize_C8_concatenation (s : String) :
    catTokens (tokenize s) = String.mk (s.data.filter (fun c => !isWs c)) := by
  apply String.ext
  unfold tokenize
  rw [tokenizeAux_cat]
  simp [catTokens]

/-- An operator entry at index `< 2` leaves the restorer's state unchanged. -/
theorem rstep_stuck_helper (s : RState) (e : Entry) (he : s.entries[s.idx]? = some e)
    (hop : isOpT e.text = true) (hidx : s.idx < 2) : rstep s = s := by
  unfold rstep
  rw [he]
  simp only [hop, if_true]
  rw [if_neg (by omega)]

/-- From a fixed point of `rstep` still inside the list, the loop never
returns, whatever the fuel. -/
theorem runRestore_stuck_helper (s : RState) (hlt : s.idx < s.entries.length)
    (hfix : rstep s = s) : ∀ fuel, runRestore fuel s = none := by
  intro fuel
  induction fuel with
  | zero => rfl
  | succ n ih =>
    rw [runRestore, if_pos hlt, hfix]
    exact ih

/-- C9 — whenever the scan reaches an operator entry with index `< 2`, the
index is neither incremented nor decremented, so the loop never terminates;
in particular the pipeline inputs "1+" and "-(2+3)" produce postfix
sequences with a stray operator and `remove_unnecessary_parentheses`
returns `none` for every fuel. -/
theorem restore_C9_nontermination :
    (∀ (s : RState) (e : Entry), s.entries[s.idx]? = some e →
        isOpT e.text = true → s.idx < 2 → s.idx < s.entries.length →
        ∀ fuel, runRestore fuel s = none) ∧
    shunt (tokenize "1+") = ["1", "+"] ∧
    (∀ fuel, remove_unnecessary_parentheses fuel "1+" = none) ∧
    shunt (tokenize "-(2+3)") = ["2", "3", "+", "-"] ∧
    (∀ fuel, remove_unnecessary_parentheses fuel "-(2+3)" = none) := by
  have hgen : ∀ (s : RState) (e : Entry), s.entries[s.idx]? = some e →
      isOpT e.text = true → s.idx < 2 → s.idx < s.entries.length →
      ∀ fuel, runRestore fuel s = none := by
    intro s e he hop hidx hlt fuel
    exact runRestore_stuck_helper s hlt (rstep_stuck_helper s e he hop hidx) fuel
  have h1 : ∀ fuel, remove_unnecessary_parentheses fuel "1+" = none := by
    have hstuck := runRestore_stuck_helper
      { entries := [mkEntry "1", mkEntry "+"], idx := 1 } (by decide) (by decide)
    intro fuel
    cases fuel with
    | zero => rfl
    | succ n =>
      unfold remove_unnecessary_parentheses restoreF
      rw [show shunt (tokenize "1+") = ["1", "+"] from by decide,
        runRestore_succ n _ (by decide),
        show rstep (initState ["1", "+"])
          = { entries := [mkEntry "1", mkEntry "+"], idx := 1 } from by decide,
        hstuck n]
  have h2 : ∀ fuel, remove_unnecessary_parentheses fuel "-(2+3)" = none := by
    have hstuck := runRestore_stuck_helper
      { entries := [{ text := "2+3", pivot := "+" }, mkEntry "-"], idx := 1 }
      (by decide) (by decide)
    intro fuel
    match fuel with
    | 0 => rfl
    | 1 => rfl
    | 2 => rfl
    | 3 => rfl
    | (n + 4) =>
      unfold remove_unnecessary_parentheses restoreF
      rw [show shunt (tokenize "-(2+3)") = ["2", "3", "+", "-"] from by decide,
        runRestore_succ (n + 3) _ (by decide),
        show rstep (initState ["2", "3", "+", "-"])
          = { entries := (["2", "3", "+", "-"].map mkEntry), idx := 1 } from by decide,
        runRestore_succ (n + 2) _ (by decide),
        show rstep { entries := (["2", "3", "+", "-"].map mkEntry), idx := 1 }
          = { entries := (["2", "3", "+", "-"].map mkEntry), idx := 2 } from by decide,
        runRestore_succ (n + 1) _ (by decide),
        show rstep { entries := (["2", "3", "+", "-"].map mkEntry), idx := 2 }
          = { entries := [{ text := "2+3", pivot := "+" }, mkEntry "-"], idx := 0 }
          from by decide,
        runRestore_succ n _ (by decide),
        show rstep { entries := [{ text := "2+3", pivot := "+" }, mkEntry "-"], idx := 0 }
          = { entries := [{ text := "2+3", pivot := "+" }, mkEntry "-"], idx := 1 }
          from by decide,
        hstuck n]
  exact ⟨hgen, by decide, h1, by decide, h2⟩

/-- Witness for C9: the general stuckness statement applied to the concrete
state reached from the postfix sequence of "1+". -/
theorem restore_C9_nontermination_witness :
    runRestore 7 { entries := [mkEntry "1", mkEntry "+"], idx := 1 } = none :=
  restore_C9_nontermination.1
    { entries := [mkEntry "1", mkEntry "+"], idx := 1 }
    (mkEntry "+") (by decide) (by decide) (by decide) (by decide) 7

/-- C10 — the empty (or whitespace-only) string tokenizes to the empty list,
converts to the empty postfix list, and the restorer then fails (the source
indexes element 0 of an empty list): the embedding returns `none` for every
fuel, never the empty string. -/
theorem rup_C10_empty_input :
    tokenize "" = [] ∧
    tokenize "  " = [] ∧
    shunt [] = [] ∧
    (∀ fuel : Nat, restoreF fuel [] = none) ∧
    (∀ fuel : Nat, remove_unnecessary_parentheses fuel "" = none) ∧
    (∀ fuel : Nat, remove_unnecessary_parentheses fuel " " = none) := by
  refine ⟨by decide, by decide, by decide, ?_, ?_, ?_⟩ <;>
    · intro fuel
      cases fuel <;> rfl

/-- Every operator symbol is a single character. -/
theorem isOpT_length (s : String) (h : isOpT s = true) : s.length = 1 := by
  unfold isOpT at h
  simp only [Bool.or_eq_true, decide_eq_true_eq] at h
  rcases h with ((((h | h) | h) | h) | h) <;> subst h <;> rfl

/-- A nonempty string has positive length. -/
theorem length_pos_of_ne (s : String) (h : s ≠ "") : 0 < s.length := by
  cases hs : s.data with
  | nil => exact absurd (String.ext (by rw [hs])) h
  | cons c cs =>
    have hl : s.length = s.data.length := rfl
    rw [hl, hs]
    simp

/-- A collapsed entry is never an operator symbol and never empty: its text
contains the operator and a nonempty left rendering, hence at least two
characters. -/
theorem collapseE_not_op (op : String) (L R : Entry) (hop : isOpT op = true)
    (hL : L.text ≠ "") :
    isOpT (collapseE op L R).text = false ∧ (collapseE op L R).text ≠ "" := by
  have hparen : ("(" : String).length = 1 := rfl
  have hlen : 2 ≤ (collapseE op L R).text.length := by
    have h1 : 0 < (wrapL op L).length := by
      unfold wrapL
      split
      · rw [String.length_append, String.length_append, hparen]
        omega
      · exact length_pos_of_ne _ hL
    have h2 : op.length = 1 := isOpT_length op hop
    show 2 ≤ (wrapL op L ++ op ++ wrapR op R).length
    rw [String.length_append, String.length_append, h2]
    omega
  refine ⟨?_, ?_⟩
  · by_contra hcon
    simp only [Bool.not_eq_false] at hcon
    have := isOpT_length _ hcon
    omega
  · intro hcon
    rw [hcon] at hlen
    simp at hlen

/-- `rstep` on a non-operator entry advances the index. -/
theorem rstep_advance (entries : List Entry) (idx : Nat) (e : Entry)
    (hget : entries[idx]? = some e) (hop : isOpT e.text = false) :
    rstep { entries := entries, idx := idx }
      = { entries := entries, idx := idx + 1 } := by
  simp [rstep, hget, hop]

/-- `rstep` on an operator entry with two predecessors collapses them. -/
theorem rstep_collapse (entries : List Entry) (idx : Nat) (e L R : Entry)
    (hget : entries[idx]? = some e) (hop : isOpT e.text = true) (h2 : 2 ≤ idx)
    (hL : entries[idx - 2]? = some L) (hR : entries[idx - 1]? = some R) :
    rstep { entries := entries, idx := idx }
      = { entries := entries.take (idx - 2)
            ++ [collapseE e.text L R] ++ entries.drop (idx + 1),
          idx := idx - 2 } := by
  simp [rstep, hget, hop, h2, hL, hR]

/-- The restorer's loop simulates the two-operand stack machine.  The
machine stack (top at the head) reversed is the scanned prefix of the
working list, followed by the unread postfix tokens; the scan index never
exceeds the prefix, every prefix entry is a nonempty non-operator, and a
linear fuel budget reaches the machine's final stack. -/
theorem runRestore_machine :
    ∀ (fuel : Nat) (rest : List String) (stack : List Entry) (idx : Nat),
      idx ≤ stack.length →
      (∀ e ∈ stack, isOpT e.text = false ∧ e.text ≠ "") →
      (∀ t ∈ rest, t ≠ "") →
      ∀ fin, machineRun stack rest = some fin →
        4 * rest.length + (stack.length - idx) + 1 ≤ fuel →
        runRestore fuel { entries := stack.reverse ++ rest.map mkEntry, idx := idx }
          = some { entries := fin.reverse, idx := fin.length } := by
  intro fuel
  induction fuel with
  | zero =>
    intro rest stack idx _ _ _ fin _ hbound
    omega
  | succ n ih =>
    intro rest stack idx hidx hstack hrest fin hm hbound
    by_cases hlt : idx < stack.length
    · -- still scanning the collapsed prefix: the entry is a non-operator
      have hlen : idx < (stack.reverse ++ rest.map mkEntry).length := by
        simp only [List.length_append, List.length_reverse, List.length_map]
        omega
      have hltr : idx < stack.reverse.length := by
        simpa using hlt
      have hget : (stack.reverse ++ rest.map mkEntry)[idx]? = stack.reverse[idx]? :=
        List.getElem?_append_left hltr
      have hget2 : stack.reverse[idx]? = some stack.reverse[idx] :=
        List.getElem?_eq_getElem hltr
      have hmem : stack.reverse[idx] ∈ stack :=
        List.mem_reverse.mp (List.getElem?_mem hget2)
      rw [runRestore, if_pos hlen,
        rstep_advance _ idx _ (hget.trans hget2) (hstack _ hmem).1]
      exact ih rest stack (idx + 1) (by omega) hstack hrest fin hm (by omega)
    · have hEq : idx = stack.length := by omega
      subst hEq
      cases rest with
      | nil =>
        have hfin : stack = fin := by
          have hm' : (some stack : Option (List Entry)) = some fin := hm
          exact Option.some.inj hm'
        subst hfin
        rw [runRestore, if_neg (by simp)]
        simp
      | cons t ts =>
        have hlen : stack.length < (stack.reverse ++ (t :: ts).map mkEntry).length := by
          simp only [List.length_append, List.length_reverse, List.length_map,
            List.length_cons]
          omega
        have htne : t ≠ "" := hrest t (by simp)
        have hget : (stack.reverse ++ (t :: ts).map mkEntry)[stack.length]?
            = some (mkEntry t) := by
          rw [List.getElem?_append_right (by simp)]
          simp
        by_cases hop : isOpT t = true
        · -- collapse case: the machine needs two stacked operands
          rw [machineRun] at hm
          cases stack with
          | nil =>
            rw [show machineStep t [] = none by simp [machineStep, hop]] at hm
            exact Option.noConfusion hm
          | cons R s1 =>
            cases s1 with
            | nil =>
              rw [show machineStep t [R] = none by simp [machineStep, hop]] at hm
              exact Option.noConfusion hm
            | cons L stack' =>
              rw [show machineStep t (R :: L :: stack')
                  = some (collapseE t L R :: stack') by simp [machineStep, hop]] at hm
              have hm' : machineRun (collapseE t L R :: stack') ts = some fin := hm
              have hshape : (R :: L :: stack').reverse ++ (t :: ts).map mkEntry
                  = stack'.reverse ++ (L :: R :: mkEntry t :: ts.map mkEntry) := by
                simp
              have hL : ((R :: L :: stack').reverse
                  ++ (t :: ts).map mkEntry)[(R :: L :: stack').length - 2]? = some L := by
                rw [hshape, List.getElem?_append_right (by simp)]
                have h0 : (R :: L :: stack').length - 2 - stack'.reverse.length = 0 := by
                  simp only [List.length_cons, List.length_reverse]
                  omega
                rw [h0]
                rfl
              have hR : ((R :: L :: stack').reverse
                  ++ (t :: ts).map mkEntry)[(R :: L :: stack').length - 1]? = some R := by
                rw [hshape, List.getElem?_append_right (by simp)]
                have h1 : (R :: L :: stack').length - 1 - stack'.reverse.length = 1 := by
                  simp only [List.length_cons, List.length_reverse]
                  omega
                rw [h1]
                rfl
              have htake : ((R :: L :: stack').reverse
                  ++ (t :: ts).map mkEntry).take ((R :: L :: stack').length - 2)
                  = stack'.reverse := by
                rw [hshape]
                refine List.take_left' ?_
                simp only [List.length_cons, List.length_reverse]
                omega
              have hdrop : ((R :: L :: stack').reverse
                  ++ (t :: ts).map mkEntry).drop ((R :: L :: stack').length + 1)
                  = ts.map mkEntry := by
                have hshape2 : (R :: L :: stack').reverse ++ (t :: ts).map mkEntry
                    = (stack'.reverse ++ [L, R, mkEntry t]) ++ ts.map mkEntry := by
                  simp
                rw [hshape2]
                refine List.drop_left' ?_
                simp only [List.length_append, List.length_cons, List.length_reverse,
                  List.length_nil]
              rw [runRestore, if_pos hlen,
                rstep_collapse _ _ _ L R hget hop
                  (by simp only [List.length_cons]; omega) hL hR,
                htake, hdrop]
              have hLne : L.text ≠ "" := (hstack L (by simp)).2
              have hcoll := collapseE_not_op t L R hop hLne
              have hre : (stack'.reverse ++ [collapseE (mkEntry t).text L R]
                    ++ ts.map mkEntry : List Entry)
                  = (collapseE t L R :: stack').reverse ++ ts.map mkEntry := by
                simp [mkEntry]
              rw [show ((R :: L :: stack').length - 2) = stack'.length by
                  simp only [List.length_cons]; omega,
                hre]
              have hstack' : ∀ x ∈ collapseE t L R :: stack',
                  isOpT x.text = false ∧ x.text ≠ "" := by
                intro x hx
                rcases List.mem_cons.mp hx with h | h
                · subst h
                  exact hcoll
                · exact hstack x (by simp [h])
              have hfit : 4 * ts.length
                  + ((collapseE t L R :: stack').length - stack'.length) + 1 ≤ n := by
                simp only [List.length_cons] at hbound ⊢
                omega
              exact ih ts (collapseE t L R :: stack') stack'.length
                (by simp) hstack' (fun x hx => hrest x (by simp [hx])) fin hm' hfit
        · -- operand case: push a fresh entry
          rw [machineRun,
            show machineStep t stack = some (mkEntry t :: stack) by
              simp [machineStep, hop]] at hm
          have hm2 : machineRun (mkEntry t :: stack) ts = some fin := hm
          rw [runRestore, if_pos hlen,
            rstep_advance _ _ _ hget (by simpa [mkEntry] using hop)]
          have hre : stack.reverse ++ (t :: ts).map mkEntry
              = (mkEntry t :: stack).reverse ++ ts.map mkEntry := by
            simp
          rw [hre]
          have hstack' : ∀ x ∈ mkEntry t :: stack,
              isOpT x.text = false ∧ x.text ≠ "" := by
            intro x hx
            rcases List.mem_cons.mp hx with h | h
            · subst h
              exact ⟨by simpa [mkEntry] using hop, by simpa [mkEntry] using htne⟩
            · exact hstack x h
          have hfit : 4 * ts.length
              + ((mkEntry t :: stack).length - (stack.length + 1)) + 1 ≤ n := by
            simp only [List.length_cons] at hbound ⊢
            omega
          have := ih ts (mkEntry t :: stack) (stack.length + 1)
            (by simp) hstack' (fun x hx => hrest x (by simp [hx])) fin hm2 hfit
          simpa using this

/-- C4 counterexample — the claim as stated is false: the postfix sequence
["1", "2"] satisfies the stated hypothesis (its stack-machine evaluation
never underflows, there being no operator token), and `restore` terminates
on it, but the working list ends with two entries rather than exactly one,
and the returned text "1" is merely the first entry's text. -/
theorem restore_C4_counterexample :
    machineRun [] ["1", "2"] = some [mkEntry "2", mkEntry "1"] ∧
    runRestore 3 (initState ["1", "2"])
      = some { entries := [mkEntry "1", mkEntry "2"], idx := 2 } ∧
    (runRestore 3 (initState ["1", "2"])).map (fun s => s.entries.length) = some 2 ∧
    restoreF 3 ["1", "2"] = some "1" := by
  refine ⟨by decide, by decide, by decide, by decide⟩

/-- C4 (amended) — for every postfix sequence of nonempty tokens whose
two-operand stack-machine evaluation never underflows and finishes with
exactly one value, `restore` terminates within a linear fuel budget: the
working list ends with exactly one entry and the returned string is that
entry's text. -/
theorem restore_C4_termination (pf : List String) (hne : ∀ t ∈ pf, t ≠ "")
    (e : Entry) (hm : machineRun [] pf = some [e]) :
    ∀ fuel, 4 * pf.length + 1 ≤ fuel →
      runRestore fuel (initState pf) = some { entries := [e], idx := 1 } ∧
      restoreF fuel pf = some e.text := by
  intro fuel hf
  have h := runRestore_machine fuel pf [] 0 (by simp) (by simp) hne [e] hm
    (by simpa using hf)
  have h2 : runRestore fuel (initState pf)
      = some { entries := [e], idx := 1 } := h
  refine ⟨h2, ?_⟩
  unfold restoreF
  rw [h2]

/-- Witness for the amended C4 at the postfix sequence of "1+2". -/
theorem restore_C4_termination_witness :
    runRestore 13 (initState ["1", "2", "+"])
      = some { entries := [{ text := "1+2", pivot := "+" }], idx := 1 } ∧
    restoreF 13 ["1", "2", "+"] = some "1+2" :=
  restore_C4_termination ["1", "2", "+"] (by decide)
    { text := "1+2", pivot := "+" } (by decide) 13 (by decide)

/-! ### Expression trees

The idempotence analysis works through binary expression trees: the
restorer's working entries are renders of subtrees, the converter's output
is a postorder traversal, and re-parsing a rendered string reassociates
equal-precedence chains.  All tree functions below are derived from the
embedded pipeline functions (`collapseE`, `prec`, `isOpT`). -/

inductive ETree where
  | leaf (t : String)
  | node (op : String) (l r : ETree)
deriving DecidableEq, Repr

/-- The restorer entry a tree collapses to: its rendered text and pivot. -/
def entryOf : ETree → Entry
  | .leaf t => mkEntry t
  | .node op l r => collapseE op (entryOf l) (entryOf r)

/-- The rendered infix text of a tree. -/
def renderT (T : ETree) : String :=
  (entryOf T).text

/-- Postorder (postfix) traversal of a tree. -/
def pfOf : ETree → List String
  | .leaf t => [t]
  | .node op l r => pfOf l ++ pfOf r ++ [op]

/-- Root precedence; leaves get the out-of-band value 3 (never popped). -/
def rootP : ETree → Nat
  | .leaf _ => 3
  | .node op _ _ => prec op

/-- Whether a tree is a node. -/
def isNodeT : ETree → Bool
  | .leaf _ => false
  | .node _ _ _ => true

/-- The left-wrap test of `collapseE`, phrased on trees. -/
def wrapLB (op : String) (l : ETree) : Bool :=
  isNodeT l && decide (prec op > rootP l)

/-- The right-wrap test of `collapseE`, phrased on trees. -/
def wrapRB (op : String) (r : ETree) : Bool :=
  isNodeT r && (decide (prec op > rootP r)
    || (decide (prec op = rootP r) && (op = "/" || op = "-")))

/-- Characters allowed inside an operand token. -/
def plainChar (c : Char) : Bool :=
  !isOpChar c && c ≠ '(' && c ≠ ')' && !isWs c

/-- Well-formed operand token: a nonempty run of plain characters, or a
unary `-` followed by such a run. -/
def wfLeafB (t : String) : Bool :=
  match t.data with
  | [] => false
  | c :: w =>
    if c = '-' then !w.isEmpty && w.all plainChar
    else plainChar c && w.all plainChar

/-- Well-formed tree: operator-labelled nodes and well-formed leaves. -/
def wfTreeB : ETree → Bool
  | .leaf t => wfLeafB t
  | .node op l r => isOpT op && wfTreeB l && wfTreeB r

/-- Canonical (reparse-stable) tree: no `^` node with a `^`-rooted left
child, and no `+`/`*` node whose right child has equal root precedence. -/
def canonicalB : ETree → Bool
  | .leaf _ => true
  | .node op l r => canonicalB l && canonicalB r
      && !(op = "^" && decide (rootP l = 2))
      && !((op = "+" || op = "*") && decide (rootP r = prec op))

/-- The token list of a rendered tree. -/
def tokensOf : ETree → List String
  | .leaf t => [t]
  | .node op l r =>
    (if wrapLB op l then "(" :: tokensOf l ++ [")"] else tokensOf l)
      ++ op :: (if wrapRB op r then "(" :: tokensOf r ++ [")"] else tokensOf r)

/-- An operator symbol is not the empty string. -/
theorem isOpT_ne_empty (s : String) (h : isOpT s = true) : s ≠ "" := by
  intro hcon
  subst hcon
  exact absurd h (by decide)

/-- The pivot of a node's entry is its operator; a leaf's pivot is empty. -/
theorem entryOf_pivot : ∀ T : ETree,
    (entryOf T).pivot = (match T with | .leaf _ => "" | .node op _ _ => op) := by
  intro T
  cases T <;> rfl

/-- A well-formed leaf token is not an operator symbol. -/
theorem wfLeafB_not_op (t : String) (h : wfLeafB t = true) : isOpT t = false := by
  by_contra hcon
  simp only [Bool.not_eq_false] at hcon
  unfold isOpT at hcon
  simp only [Bool.or_eq_true, decide_eq_true_eq] at hcon
  rcases hcon with ((((hc | hc) | hc) | hc) | hc) <;> subst hc <;>
    exact absurd h (by decide)

/-- A well-formed leaf token is nonempty. -/
theorem wfLeafB_ne_empty (t : String) (h : wfLeafB t = true) : t ≠ "" := by
  intro hcon
  subst hcon
  exact absurd h (by decide)

/-- `wrapL` on entries agrees with the tree-level test. -/
theorem wrapL_entry (op : String) (l : ETree) (hwf : wfTreeB l = true) :
    wrapL op (entryOf l) =
      if wrapLB op l then "(" ++ (entryOf l).text ++ ")" else (entryOf l).text := by
  cases l with
  | leaf t => rfl
  | node op' l1 r1 =>
    have hop' : isOpT op' = true := by
      unfold wfTreeB at hwf
      simp only [Bool.and_eq_true] at hwf
      exact hwf.1.1
    have hne : op' ≠ "" := isOpT_ne_empty op' hop'
    have h1 : decide (op' ≠ "") = true := decide_eq_true hne
    unfold wrapL wrapLB
    rw [entryOf_pivot]
    simp only [isNodeT, rootP, h1, Bool.true_and]

/-- `wrapR` on entries agrees with the tree-level test. -/
theorem wrapR_entry (op : String) (r : ETree) (hwf : wfTreeB r = true) :
    wrapR op (entryOf r) =
      if wrapRB op r then "(" ++ (entryOf r).text ++ ")" else (entryOf r).text := by
  cases r with
  | leaf t => rfl
  | node op' l1 r1 =>
    have hop' : isOpT op' = true := by
      unfold wfTreeB at hwf
      simp only [Bool.and_eq_true] at hwf
      exact hwf.1.1
    have hne : op' ≠ "" := isOpT_ne_empty op' hop'
    have h1 : decide (op' ≠ "") = true := decide_eq_true hne
    unfold wrapR wrapRB
    rw [entryOf_pivot]
    simp only [isNodeT, rootP, h1, Bool.true_and]
    rw [if_pos hne]

/-- The rendered text of a node in terms of the tree-level wrap tests. -/
theorem renderT_node (op : String) (l r : ETree)
    (hl : wfTreeB l = true) (hr : wfTreeB r = true) :
    renderT (.node op l r)
      = (if wrapLB op l then "(" ++ renderT l ++ ")" else renderT l)
        ++ op
        ++ (if wrapRB op r then "(" ++ renderT r ++ ")" else renderT r) := by
  show (collapseE op (entryOf l) (entryOf r)).text = _
  unfold collapseE
  simp only [wrapL_entry op l hl, wrapR_entry op r hr]
  rfl

/-- Every token of a well-formed tree's postorder is nonempty. -/
theorem pfOf_ne_empty (T : ETree) (h : wfTreeB T = true) :
    ∀ t ∈ pfOf T, t ≠ "" := by
  induction T with
  | leaf t =>
    intro x hx
    simp only [pfOf, List.mem_singleton] at hx
    subst hx
    exact wfLeafB_ne_empty x h
  | node op l r ihl ihr =>
    unfold wfTreeB at h
    simp only [Bool.and_eq_true] at h
    intro x hx
    simp only [pfOf, List.mem_append, List.mem_singleton] at hx
    rcases hx with (hx | hx) | hx
    · exact ihl h.1.2 x hx
    · exact ihr h.2 x hx
    · subst hx
      exact isOpT_ne_empty x h.1.1

/-- Evaluating a tree's postorder on the stack machine pushes its entry. -/
theorem machineRun_pfOf (T : ETree) (hwf : wfTreeB T = true) :
    ∀ (stack : List Entry) (rest : List String),
      machineRun stack (pfOf T ++ rest) = machineRun (entryOf T :: stack) rest := by
  induction T with
  | leaf t =>
    intro stack rest
    rw [show pfOf (.leaf t) ++ rest = t :: rest from rfl, machineRun,
      show machineStep t stack = some (mkEntry t :: stack) by
        simp [machineStep, wfLeafB_not_op t hwf]]
    rfl
  | node op l r ihl ihr =>
    unfold wfTreeB at hwf
    simp only [Bool.and_eq_true] at hwf
    intro stack rest
    have hshape : pfOf (.node op l r) ++ rest
        = pfOf l ++ (pfOf r ++ (op :: rest)) := by
      simp [pfOf]
    rw [hshape, ihl hwf.1.2, ihr hwf.2, machineRun,
      show machineStep op (entryOf r :: entryOf l :: stack)
          = some (collapseE op (entryOf l) (entryOf r) :: stack) by
        simp [machineStep, hwf.1.1]]
    rfl

/-- One token of the postfix-to-tree parser. -/
def parseStep (t : String) (stack : List ETree) : Option (List ETree) :=
  if isOpT t then
    match stack with
    | r :: l :: rest => some (.node t l r :: rest)
    | _ => none
  else some (.leaf t :: stack)

/-- The postfix-to-tree parser's run over a token list. -/
def parseRun : List ETree → List String → Option (List ETree)
  | stack, [] => some stack
  | stack, t :: ts =>
    match parseStep t stack with
    | none => none
    | some s2 => parseRun s2 ts

/-- Parse a postfix sequence into the unique tree it evaluates, if any. -/
def parsePostfix (pf : List String) : Option ETree :=
  match parseRun [] pf with
  | some [T] => some T
  | _ => none

/-- Concatenated postorders of a parser stack (bottom first). -/
def flatPf (stack : List ETree) : List String :=
  (stack.reverse.map pfOf).flatten

/-- The parser's stack always accounts for the consumed tokens. -/
theorem parseRun_flat :
    ∀ (pf : List String) (stack stack' : List ETree),
      parseRun stack pf = some stack' → flatPf stack' = flatPf stack ++ pf := by
  intro pf
  induction pf with
  | nil =>
    intro stack stack' h
    have h' : stack = stack' := by
      have : (some stack : Option (List ETree)) = some stack' := h
      exact Option.some.inj this
    subst h'
    simp
  | cons t ts ih =>
    intro stack stack' h
    rw [parseRun] at h
    by_cases hop : isOpT t = true
    · cases stack with
      | nil =>
        rw [show parseStep t [] = none by simp [parseStep, hop]] at h
        exact Option.noConfusion h
      | cons r s1 =>
        cases s1 with
        | nil =>
          rw [show parseStep t [r] = none by simp [parseStep, hop]] at h
          exact Option.noConfusion h
        | cons l rest =>
          rw [show parseStep t (r :: l :: rest) = some (.node t l r :: rest) by
            simp [parseStep, hop]] at h
          have h2 := ih _ _ h
          rw [h2]
          simp [flatPf, pfOf]
    · rw [show parseStep t stack = some (.leaf t :: stack) by
        simp [parseStep, hop]] at h
      have h2 := ih _ _ h
      rw [h2]
      simp [flatPf, pfOf]

/-- A successful parse inverts the postorder traversal. -/
theorem parsePostfix_pfOf (pf : List String) (T : ETree)
    (h : parsePostfix pf = some T) : pf = pfOf T := by
  unfold parsePostfix at h
  cases hrun : parseRun [] pf with
  | none =>
    rw [hrun] at h
    exact Option.noConfusion h
  | some stack =>
    rw [hrun] at h
    match stack, h with
    | [U], h =>
      have hU : U = T := Option.some.inj h
      subst hU
      have := parseRun_flat pf [] [U] hrun
      simpa [flatPf] using this.symm

/-- Chain continuation: `+ * ^` leave an equal-precedence right operand
unparenthesized (so it joins the rendered chain); `- /` wrap it. -/
def chainCont (o : String) : Bool :=
  o = "+" || o = "*" || o = "^"

/-- Flatten the maximal exposed chain of precedence `p`: the first element
together with the (operator, element) links, in rendered order. -/
def flatP (p : Nat) : ETree → ETree × List (String × ETree)
  | .leaf t => (.leaf t, [])
  | .node o x y =>
    if prec o = p then
      ((flatP p x).1, (flatP p x).2 ++
        (if chainCont o then (o, (flatP p y).1) :: (flatP p y).2 else [(o, y)]))
    else (.node o x y, [])

/-- Left-nested rebuild of a flattened chain (left-associative parsing). -/
def foldLN (h : ETree) : List (String × ETree) → ETree
  | [] => h
  | (q, e) :: ps => foldLN (.node q h e) ps

/-- Right-nested rebuild of a flattened chain (for the `^` chain). -/
def foldRN (h : ETree) : List (String × ETree) → ETree
  | [] => h
  | (q, e) :: ps => .node q h (foldRN e ps)

/-- Reassociate a tree into its reparse-stable form: equal-precedence
chains of `+ - * /` become left-nested and `^` chains right-nested.  The
rendered text is unchanged (proved below). -/
def canon : ETree → ETree
  | .leaf t => .leaf t
  | .node op l r =>
    let fl := flatP (prec op) (.node op (canon l) (canon r))
    if op = "^" then foldRN fl.1 fl.2 else foldLN fl.1 fl.2

/-- Rendered text of one chain link. -/
def linkR (q : String) (e : ETree) : String :=
  q ++ (if wrapRB q e then "(" ++ renderT e ++ ")" else renderT e)

/-- Rendered text of a flattened chain: the head (wrapped when its root
binds less tightly than the chain) followed by the links. -/
def crend (p : Nat) (h : ETree) (ps : List (String × ETree)) : String :=
  (if rootP h < p then "(" ++ renderT h ++ ")" else renderT h)
    ++ catTokens (ps.map (fun qe => linkR qe.1 qe.2))

/-- The table's precedences are at most 2. -/
theorem prec_le_two (s : String) : prec s ≤ 2 := by
  unfold prec
  split
  · omega
  · split <;> omega

/-- The only operator of precedence 2 is `^`. -/
theorem prec_two_hat (s : String) (hop : isOpT s = true) (h : prec s = 2) :
    s = "^" := by
  unfold isOpT at hop
  simp only [Bool.or_eq_true, decide_eq_true_eq] at hop
  rcases hop with ((((hc | hc) | hc) | hc) | hc) <;> subst hc <;>
    first
      | rfl
      | exact absurd h (by decide)

/-- An operator of precedence at most 1 is not `^`. -/
theorem prec_le_one_ne_hat (s : String) (h : prec s ≤ 1) : s ≠ "^" := by
  intro hc
  subst hc
  exact absurd h (by decide)

/-- The left-wrap test only compares the root precedence. -/
theorem wrapLB_iff_lt (q : String) (h : ETree) :
    wrapLB q h = decide (rootP h < prec q) := by
  cases h with
  | leaf t =>
    have : ¬ (rootP (ETree.leaf t) < prec q) := by
      have := prec_le_two q
      simp only [rootP]
      omega
    simp [wrapLB, isNodeT, this]
  | node o x y => simp [wrapLB, isNodeT, rootP, Nat.lt_iff_add_one_le]

/-- Away from equal precedence, the right-wrap test is the same comparison. -/
theorem wrapRB_eq_lt_of_ne (q : String) (e : ETree) (hne : rootP e ≠ prec q) :
    wrapRB q e = decide (rootP e < prec q) := by
  cases e with
  | leaf t =>
    have : ¬ (rootP (ETree.leaf t) < prec q) := by
      have := prec_le_two q
      simp only [rootP]
      omega
    simp [wrapRB, isNodeT, this]
  | node o x y =>
    have hne' : ¬ (prec q = rootP (ETree.node o x y)) := fun hc => hne hc.symm
    simp [wrapRB, isNodeT, hne', Nat.lt_iff_add_one_le]

/-- Invariant of one chain link: an operator of the chain's precedence and
a well-formed canonical element, whose root leaves the chain when the
operator continues it. -/
def linkOK (p : Nat) (qe : String × ETree) : Prop :=
  isOpT qe.1 = true ∧ prec qe.1 = p ∧ wfTreeB qe.2 = true ∧
    canonicalB qe.2 = true ∧ (chainCont qe.1 = true → rootP qe.2 ≠ p)

/-- Flattening a well-formed canonical tree yields a well-formed canonical
head whose root leaves the chain, and well-behaved links. -/
theorem flatP_spec (p : Nat) (hp : p ≤ 2) :
    ∀ T, wfTreeB T = true → canonicalB T = true →
      wfTreeB (flatP p T).1 = true ∧ canonicalB (flatP p T).1 = true ∧
      rootP (flatP p T).1 ≠ p ∧
      ∀ qe ∈ (flatP p T).2, linkOK p qe := by
  intro T
  induction T with
  | leaf t =>
    intro hwf _
    refine ⟨hwf, rfl, ?_, ?_⟩
    · show rootP (ETree.leaf t) ≠ p
      simp only [rootP]
      omega
    · intro qe hqe
      simp only [flatP, List.not_mem_nil] at hqe
  | node o x y ihx ihy =>
    intro hwf hcan
    simp only [wfTreeB, Bool.and_eq_true] at hwf
    simp only [canonicalB, Bool.and_eq_true] at hcan
    have hwx := hwf.1.2
    have hwy := hwf.2
    have hcx := hcan.1.1.1
    have hcy := hcan.1.1.2
    by_cases hpo : prec o = p
    · have hfl : flatP p (ETree.node o x y)
          = ((flatP p x).1, (flatP p x).2 ++
            (if chainCont o then (o, (flatP p y).1) :: (flatP p y).2
             else [(o, y)])) := by
        rw [flatP, if_pos hpo]
      rw [hfl]
      obtain ⟨hx1, hx2, hx3, hx4⟩ := ihx hwx hcx
      refine ⟨hx1, hx2, hx3, ?_⟩
      intro qe hqe
      simp only [List.mem_append] at hqe
      rcases hqe with hqe | hqe
      · exact hx4 qe hqe
      · by_cases hcc : chainCont o = true
        · rw [if_pos hcc] at hqe
          obtain ⟨hy1, hy2, hy3, hy4⟩ := ihy hwy hcy
          rcases List.mem_cons.mp hqe with hqe | hqe
          · subst hqe
            exact ⟨hwf.1.1, hpo, hy1, hy2, fun _ => hy3⟩
          · exact hy4 qe hqe
        · rw [if_neg hcc] at hqe
          rcases List.mem_cons.mp hqe with hqe | hqe
          · subst hqe
            refine ⟨hwf.1.1, hpo, hwy, hcy, ?_⟩
            intro hc
            exact absurd hc hcc
          · simp at hqe
    · have hfl : flatP p (ETree.node o x y) = (ETree.node o x y, []) := by
        rw [flatP, if_neg hpo]
      rw [hfl]
      refine ⟨?_, ?_, ?_, ?_⟩
      · simp only [wfTreeB, Bool.and_eq_true]
        exact hwf
      · simp only [canonicalB, Bool.and_eq_true]
        exact hcan
      · show rootP (ETree.node o x y) ≠ p
        simpa [rootP] using hpo
      · intro qe hqe
        simp at hqe

/-- Left-nested rebuilds of well-formed chains are well formed. -/
theorem foldLN_wf :
    ∀ (ps : List (String × ETree)) (h : ETree), wfTreeB h = true →
      (∀ qe ∈ ps, isOpT qe.1 = true ∧ wfTreeB qe.2 = true) →
      wfTreeB (foldLN h ps) = true := by
  intro ps
  induction ps with
  | nil => intro h hw _; exact hw
  | cons qe ps ih =>
    intro h hw hps
    obtain ⟨q, e⟩ := qe
    have h1 := hps (q, e) (by simp)
    refine ih (.node q h e) ?_ (fun x hx => hps x (by simp [hx]))
    simp only [wfTreeB, Bool.and_eq_true]
    exact ⟨⟨h1.1, hw⟩, h1.2⟩

/-- Right-nested rebuilds of well-formed chains are well formed. -/
theorem foldRN_wf :
    ∀ (ps : List (String × ETree)) (h : ETree), wfTreeB h = true →
      (∀ qe ∈ ps, isOpT qe.1 = true ∧ wfTreeB qe.2 = true) →
      wfTreeB (foldRN h ps) = true := by
  intro ps
  induction ps with
  | nil => intro h hw _; exact hw
  | cons qe ps ih =>
    intro h hw hps
    obtain ⟨q, e⟩ := qe
    have h1 := hps (q, e) (by simp)
    simp only [foldRN, wfTreeB, Bool.and_eq_true]
    exact ⟨⟨h1.1, hw⟩, ih e h1.2 (fun x hx => hps x (by simp [hx]))⟩

/-- A left-nested rebuild of a low-precedence chain is canonical. -/
theorem foldLN_canonical (p : Nat) (hp : p ≤ 1) :
    ∀ (ps : List (String × ETree)) (h : ETree), canonicalB h = true →
      (∀ qe ∈ ps, linkOK p qe) →
      canonicalB (foldLN h ps) = true := by
  intro ps
  induction ps with
  | nil => intro h hc _; exact hc
  | cons qe ps ih =>
    intro h hc hps
    obtain ⟨q, e⟩ := qe
    obtain ⟨hq1, hq2, _, hq4, hq5⟩ := hps (q, e) (by simp)
    refine ih (.node q h e) ?_ (fun x hx => hps x (by simp [hx]))
    have hqhat : q ≠ "^" := prec_le_one_ne_hat q (hq2 ▸ hp)
    simp only [canonicalB, Bool.and_eq_true]
    refine ⟨⟨⟨hc, hq4⟩, ?_⟩, ?_⟩
    · simp [hqhat]
    · simp only [Bool.not_eq_true', Bool.and_eq_false_iff]
      by_cases hq : (q = "+" || q = "*") = true
      · right
        have hcc : chainCont q = true := by
          simp only [chainCont, Bool.or_eq_true] at hq ⊢
          tauto
        simpa [hq2] using hq5 hcc
      · left
        simpa using hq

/-- A right-nested rebuild of a `^` chain is canonical. -/
theorem foldRN_canonical :
    ∀ (ps : List (String × ETree)) (h : ETree), canonicalB h = true →
      rootP h ≠ 2 →
      (∀ qe ∈ ps, linkOK 2 qe) →
      canonicalB (foldRN h ps) = true := by
  intro ps
  induction ps with
  | nil => intro h hc _ _; exact hc
  | cons qe ps ih =>
    intro h hc hr hps
    obtain ⟨q, e⟩ := qe
    obtain ⟨hq1, hq2, _, hq4, hq5⟩ := hps (q, e) (by simp)
    have hqhat : q = "^" := prec_two_hat q hq1 hq2
    have hcc : chainCont q = true := by
      simp [chainCont, hqhat]
    have hre : rootP e ≠ 2 := hq5 hcc
    simp only [foldRN, canonicalB, Bool.and_eq_true]
    refine ⟨⟨⟨hc, ih e hq4 hre (fun x hx => hps x (by simp [hx]))⟩, ?_⟩, ?_⟩
    · simp only [Bool.not_eq_true', Bool.and_eq_false_iff]
      right
      simpa using hr
    · simp only [Bool.not_eq_true', Bool.and_eq_false_iff]
      left
      simp [hqhat]

/-- The root of a nonempty left-nested rebuild is the chain precedence. -/
theorem rootP_foldLN (p : Nat) :
    ∀ (ps : List (String × ETree)) (h : ETree), ps ≠ [] →
      (∀ qe ∈ ps, prec qe.1 = p) →
      rootP (foldLN h ps) = p := by
  intro ps
  induction ps with
  | nil => intro h hne _; exact absurd rfl hne
  | cons qe ps ih =>
    intro h _ hps
    obtain ⟨q, e⟩ := qe
    cases ps with
    | nil =>
      show rootP (.node q h e) = p
      simpa [rootP] using hps (q, e) (by simp)
    | cons qe2 ps2 =>
      exact ih (.node q h e) (by simp) (fun x hx => hps x (by simp [hx]))

/-- The root of a nonempty right-nested rebuild is the chain precedence. -/
theorem rootP_foldRN (p : Nat) :
    ∀ (ps : List (String × ETree)) (h : ETree), ps ≠ [] →
      (∀ qe ∈ ps, prec qe.1 = p) →
      rootP (foldRN h ps) = p := by
  intro ps
  cases ps with
  | nil => intro h hne _; exact absurd rfl hne
  | cons qe ps =>
    intro h _ hps
    obtain ⟨q, e⟩ := qe
    show rootP (.node q h (foldRN e ps)) = p
    simpa [rootP] using hps (q, e) (by simp)

/-- Both children canonical (the root constraint itself not required). -/
def subCanB : ETree → Bool
  | .leaf _ => true
  | .node _ x y => canonicalB x && canonicalB y

/-- A canonical tree has canonical children. -/
theorem canonicalB_sub (T : ETree) (h : canonicalB T = true) : subCanB T = true := by
  cases T with
  | leaf t => rfl
  | node o x y =>
    simp only [canonicalB, Bool.and_eq_true] at h
    simp only [subCanB, Bool.and_eq_true]
    exact ⟨h.1.1.1, h.1.1.2⟩

/-- Trees whose root is off the chain precedence do not flatten. -/
theorem flatP_of_root_ne (p : Nat) (T : ETree) (h : rootP T ≠ p) :
    flatP p T = (T, []) := by
  cases T with
  | leaf t => rfl
  | node o x y =>
    rw [flatP, if_neg (by simpa [rootP] using h)]

/-- Chain-continuing operators are not `-` or `/`. -/
theorem chainCont_not_sd (o : String) (h : chainCont o = true) :
    (o = "/" || o = "-") = false := by
  simp only [chainCont, Bool.or_eq_true, decide_eq_true_eq] at h
  rcases h with (hc | hc) | hc <;> subst hc <;> rfl

/-- An operator other than `^` has precedence at most 1. -/
theorem prec_le_one_of_ne_hat (o : String) (hop : isOpT o = true) (h : o ≠ "^") :
    prec o ≤ 1 := by
  unfold isOpT at hop
  simp only [Bool.or_eq_true, decide_eq_true_eq] at hop
  rcases hop with ((((hc | hc) | hc) | hc) | hc) <;> subst hc <;>
    first
      | decide
      | exact absurd rfl h

/-- The right-wrap test in terms of the root precedence alone. -/
theorem wrapRB_eq_rootP (q : String) (e : ETree) :
    wrapRB q e = (decide (rootP e < prec q)
      || (decide (rootP e = prec q) && (q = "/" || q = "-"))) := by
  cases e with
  | leaf t =>
    have h2 := prec_le_two q
    have hlt : ¬ (rootP (ETree.leaf t) < prec q) := by
      simp only [rootP]
      omega
    have heq : ¬ (rootP (ETree.leaf t) = prec q) := by
      simp only [rootP]
      omega
    simp [wrapRB, isNodeT, hlt, heq]
  | node o x y =>
    have hgt : (decide (prec q > rootP (ETree.node o x y)))
        = (decide (rootP (ETree.node o x y) < prec q)) := rfl
    have heq : (decide (prec q = rootP (ETree.node o x y)))
        = (decide (rootP (ETree.node o x y) = prec q)) := by
      by_cases hc : prec q = rootP (ETree.node o x y)
      · simp [hc]
      · have hc' : ¬ rootP (ETree.node o x y) = prec q := fun h => hc h.symm
        simp [hc, hc']
    simp only [wrapRB, isNodeT, Bool.true_and, hgt, heq]

/-- The right-wrap test under `^` compares precedences strictly. -/
theorem wrapRB_hat (e : ETree) : wrapRB "^" e = decide (rootP e < 2) := by
  rw [wrapRB_eq_rootP]
  simp [prec]

/-- Convert a decided condition back to a propositional `if`. -/
theorem ite_decide {α : Sort _} (P : Prop) [Decidable P] (A B : α) :
    (if decide P = true then A else B) = if P then A else B := by
  by_cases h : P <;> simp [h]

/-- Concatenation distributes over token-list append. -/
theorem catTokens_app (xs ys : List String) :
    catTokens (xs ++ ys) = catTokens xs ++ catTokens ys := by
  induction xs with
  | nil => simp [catTokens]
  | cons t ts ih => simp [catTokens, ih, String.append_assoc]

/-- Chain render of an appended link list. -/
theorem crend_app (p : Nat) (h : ETree) (ps1 ps2 : List (String × ETree)) :
    crend p h (ps1 ++ ps2)
      = crend p h ps1 ++ catTokens (ps2.map (fun qe => linkR qe.1 qe.2)) := by
  unfold crend
  rw [List.map_append, catTokens_app]
  exact (String.append_assoc _ _ _).symm

/-- Flattening inverts rendering: the chain render of a flattened tree is
the tree's rendered text, wrapped exactly when its root binds less tightly
than the chain precedence. -/
theorem crend_flatP (p : Nat) (hp : p ≤ 2) :
    ∀ T, wfTreeB T = true → subCanB T = true →
      crend p (flatP p T).1 (flatP p T).2
        = if rootP T < p then "(" ++ renderT T ++ ")" else renderT T := by
  intro T
  induction T with
  | leaf t =>
    intro _ _
    show crend p (ETree.leaf t) [] = _
    unfold crend
    simp [catTokens]
  | node o x y ihx ihy =>
    intro hwf hcan
    simp only [wfTreeB, Bool.and_eq_true] at hwf
    simp only [subCanB, Bool.and_eq_true] at hcan
    by_cases hpo : prec o = p
    · have hfl : flatP p (ETree.node o x y)
          = ((flatP p x).1, (flatP p x).2 ++
            (if chainCont o then (o, (flatP p y).1) :: (flatP p y).2
             else [(o, y)])) := by
        rw [flatP, if_pos hpo]
      have hroot : ¬ (rootP (ETree.node o x y) < p) := by
        simp only [rootP, hpo]
        omega
      rw [hfl, if_neg hroot, crend_app,
        ihx hwf.1.2 (canonicalB_sub x hcan.1),
        renderT_node o x y hwf.1.2 hwf.2]
      have hxpart : (if rootP x < p then "(" ++ renderT x ++ ")" else renderT x)
          = (if wrapLB o x then "(" ++ renderT x ++ ")" else renderT x) := by
        rw [wrapLB_iff_lt, ite_decide, hpo]
      rw [hxpart, String.append_assoc, String.append_assoc]
      congr 1
      -- remaining: links render = o ++ right part
      by_cases hcc : chainCont o = true
      · rw [if_pos hcc]
        by_cases hry : rootP y = p
        · -- the right chain joins: its render is the nested chain render
          have hwry : wrapRB o y = false := by
            rw [wrapRB_eq_rootP, hpo, chainCont_not_sd o hcc]
            simp only [hry, hpo]
            simp
          rw [hwry]
          simp only [Bool.false_eq_true, if_false]
          have hyc := ihy hwf.2 (canonicalB_sub y hcan.2)
          rw [if_neg (by omega : ¬ (rootP y < p))] at hyc
          rw [← hyc]
          obtain ⟨_, _, hyh, _⟩ := flatP_spec p hp y hwf.2 hcan.2
          unfold crend linkR
          simp only [List.map_cons, catTokens]
          rw [wrapRB_eq_rootP, hpo]
          have hde : decide (rootP (flatP p y).1 = p) = false := by
            simpa using hyh
          rw [hde]
          simp only [Bool.and_false, Bool.false_and, Bool.or_false]
          rw [ite_decide, String.append_assoc]
        · -- the right element stands alone
          rw [flatP_of_root_ne p y hry]
          unfold linkR
          simp [catTokens, String.append_assoc]
      · rw [if_neg hcc]
        unfold linkR
        simp [catTokens, String.append_assoc]
    · have hfl : flatP p (ETree.node o x y) = (ETree.node o x y, []) := by
        rw [flatP, if_neg hpo]
      rw [hfl]
      unfold crend
      simp [catTokens]

/-- The rendered text of a left-nested rebuild is the chain render. -/
theorem foldLN_render (p : Nat) :
    ∀ (ps : List (String × ETree)) (h : ETree), ps ≠ [] → wfTreeB h = true →
      (∀ qe ∈ ps, isOpT qe.1 = true ∧ prec qe.1 = p ∧ wfTreeB qe.2 = true) →
      renderT (foldLN h ps) = crend p h ps := by
  intro ps
  induction ps with
  | nil =>
    intro h hne _ _
    exact absurd rfl hne
  | cons qe ps ih =>
    intro h _ hw hps
    obtain ⟨q, e⟩ := qe
    obtain ⟨hq1, hq2, hq3⟩ := hps (q, e) (by simp)
    have hwnode : wfTreeB (ETree.node q h e) = true := by
      simp only [wfTreeB, Bool.and_eq_true]
      exact ⟨⟨hq1, hw⟩, hq3⟩
    cases ps with
    | nil =>
      show renderT (ETree.node q h e) = crend p h [(q, e)]
      rw [renderT_node q h e hw hq3]
      unfold crend linkR
      rw [wrapLB_iff_lt, ite_decide, hq2]
      simp only [List.map_cons, List.map_nil, catTokens, String.append_empty]
      apply String.ext
      simp
    | cons qe2 ps2 =>
      show renderT (foldLN (ETree.node q h e) (qe2 :: ps2)) = _
      rw [ih (ETree.node q h e) (by simp) hwnode (fun x hx => hps x (by simp [hx]))]
      unfold crend
      have hr : ¬ (rootP (ETree.node q h e) < p) := by
        simp only [rootP, hq2]
        omega
      rw [if_neg hr, renderT_node q h e hw hq3, wrapLB_iff_lt, ite_decide, hq2]
      simp only [List.map_cons, catTokens]
      unfold linkR
      apply String.ext
      simp

/-- The rendered text of a right-nested `^` rebuild is the chain render. -/
theorem foldRN_render :
    ∀ (ps : List (String × ETree)) (h : ETree), ps ≠ [] → wfTreeB h = true →
      (∀ qe ∈ ps, qe.1 = "^" ∧ wfTreeB qe.2 = true) →
      renderT (foldRN h ps) = crend 2 h ps := by
  intro ps
  induction ps with
  | nil =>
    intro h hne _ _
    exact absurd rfl hne
  | cons qe ps ih =>
    intro h _ hw hps
    obtain ⟨q, e⟩ := qe
    obtain ⟨hq1, hq3⟩ := hps (q, e) (by simp)
    subst hq1
    cases ps with
    | nil =>
      show renderT (ETree.node "^" h e) = crend 2 h [("^", e)]
      rw [renderT_node "^" h e hw hq3]
      unfold crend linkR
      rw [wrapLB_iff_lt, ite_decide, show prec "^" = 2 from by decide]
      simp only [List.map_cons, List.map_nil, catTokens, String.append_empty]
      apply String.ext
      simp
    | cons qe2 ps2 =>
      have hwrest : wfTreeB (foldRN e (qe2 :: ps2)) = true := by
        refine foldRN_wf (qe2 :: ps2) e hq3 ?_
        intro x hx
        obtain ⟨hx1, hx2⟩ := hps x (by simp [hx])
        exact ⟨by rw [hx1]; decide, hx2⟩
      have hrrest : rootP (foldRN e (qe2 :: ps2)) = 2 := by
        refine rootP_foldRN 2 (qe2 :: ps2) e (by simp) ?_
        intro x hx
        rw [(hps x (by simp [hx])).1]
        decide
      show renderT (ETree.node "^" h (foldRN e (qe2 :: ps2))) = _
      rw [renderT_node "^" h _ hw hwrest,
        show wrapRB "^" (foldRN e (qe2 :: ps2)) = false by
          rw [wrapRB_hat, hrrest]
          decide,
        ih e (by simp) hq3 (fun x hx => hps x (by simp [hx]))]
      unfold crend linkR
      simp only [Bool.false_eq_true, if_false, List.map_cons, catTokens]
      rw [wrapLB_iff_lt, ite_decide, show prec "^" = 2 from by decide,
        wrapRB_hat, ite_decide]
      apply String.ext
      simp

/-- Canonicalization preserves well-formedness, root precedence and the
rendered text, and always yields a canonical tree. -/
theorem canon_spec : ∀ T, wfTreeB T = true →
    wfTreeB (canon T) = true ∧ canonicalB (canon T) = true ∧
      rootP (canon T) = rootP T ∧ renderT (canon T) = renderT T := by
  intro T
  induction T with
  | leaf t =>
    intro hwf
    exact ⟨hwf, rfl, rfl, rfl⟩
  | node op l r ihl ihr =>
    intro hwf
    simp only [wfTreeB, Bool.and_eq_true] at hwf
    obtain ⟨hwl, hcl, hrl, hsl⟩ := ihl hwf.1.2
    obtain ⟨hwr, hcr, hrr, hsr⟩ := ihr hwf.2
    have hop := hwf.1.1
    have hple : prec op ≤ 2 := prec_le_two op
    have hwfn : wfTreeB (ETree.node op (canon l) (canon r)) = true := by
      simp only [wfTreeB, Bool.and_eq_true]
      exact ⟨⟨hop, hwl⟩, hwr⟩
    have hsub : subCanB (ETree.node op (canon l) (canon r)) = true := by
      simp only [subCanB, Bool.and_eq_true]
      exact ⟨hcl, hcr⟩
    have hrn : renderT (ETree.node op (canon l) (canon r))
        = renderT (ETree.node op l r) := by
      rw [renderT_node op _ _ hwl hwr, renderT_node op l r hwf.1.2 hwf.2,
        hsl, hsr, wrapLB_iff_lt, wrapLB_iff_lt, hrl,
        wrapRB_eq_rootP, wrapRB_eq_rootP, hrr]
    obtain ⟨hfw, hfc, hfr, hfl4⟩ := flatP_spec (prec op) hple (canon l) hwl hcl
    have hflTop : flatP (prec op) (ETree.node op (canon l) (canon r))
        = ((flatP (prec op) (canon l)).1,
           (flatP (prec op) (canon l)).2 ++
             (if chainCont op then
                (op, (flatP (prec op) (canon r)).1) :: (flatP (prec op) (canon r)).2
              else [(op, canon r)])) := by
      rw [flatP, if_pos rfl]
    have hys : ∀ qe ∈ (if chainCont op then
          (op, (flatP (prec op) (canon r)).1) :: (flatP (prec op) (canon r)).2
        else [(op, canon r)]), linkOK (prec op) qe := by
      obtain ⟨hgw, hgc, hgr, hg4⟩ := flatP_spec (prec op) hple (canon r) hwr hcr
      by_cases hcc : chainCont op = true
      · rw [if_pos hcc]
        intro qe hqe
        rcases List.mem_cons.mp hqe with hqe | hqe
        · subst hqe
          exact ⟨hop, rfl, hgw, hgc, fun _ => hgr⟩
        · exact hg4 qe hqe
      · rw [if_neg hcc]
        intro qe hqe
        rcases List.mem_cons.mp hqe with hqe | hqe
        · subst hqe
          exact ⟨hop, rfl, hwr, hcr, fun hc => absurd hc hcc⟩
        · simp at hqe
    have hlinks : ∀ qe ∈ (flatP (prec op) (ETree.node op (canon l) (canon r))).2,
        linkOK (prec op) qe := by
      rw [hflTop]
      intro qe hqe
      rcases List.mem_append.mp hqe with hqe | hqe
      · exact hfl4 qe hqe
      · exact hys qe hqe
    have hne : (flatP (prec op) (ETree.node op (canon l) (canon r))).2 ≠ [] := by
      rw [hflTop]
      by_cases hcc : chainCont op = true <;> simp [hcc]
    have hcr2 := crend_flatP (prec op) hple (ETree.node op (canon l) (canon r)) hwfn hsub
    rw [if_neg (by simp only [rootP]; omega)] at hcr2
    have hfst : (flatP (prec op) (ETree.node op (canon l) (canon r))).1
        = (flatP (prec op) (canon l)).1 := by
      rw [hflTop]
    have hcanon : canon (ETree.node op l r)
        = if op = "^"
          then foldRN (flatP (prec op) (ETree.node op (canon l) (canon r))).1
            (flatP (prec op) (ETree.node op (canon l) (canon r))).2
          else foldLN (flatP (prec op) (ETree.node op (canon l) (canon r))).1
            (flatP (prec op) (ETree.node op (canon l) (canon r))).2 := rfl
    by_cases hhat : op = "^"
    · subst hhat
      have hp2 : prec "^" = 2 := by decide
      rw [hcanon, if_pos rfl, hfst]
      rw [hfst] at hcr2
      refine ⟨?_, ?_, ?_, ?_⟩
      · refine foldRN_wf _ _ hfw ?_
        intro x hx
        obtain ⟨h1, _, h3, _, _⟩ := hlinks x hx
        exact ⟨h1, h3⟩
      · refine foldRN_canonical _ _ hfc (by rw [← hp2]; exact hfr) ?_
        intro x hx
        have := hlinks x hx
        rw [hp2] at this
        exact this
      · rw [rootP_foldRN (prec "^") _ _ hne
          (fun x hx => (hlinks x hx).2.1)]
        rfl
      · rw [foldRN_render _ _ hne hfw ?_, ← hp2, hcr2, hrn]
        intro x hx
        obtain ⟨h1, h2, h3, _, _⟩ := hlinks x hx
        exact ⟨prec_two_hat x.1 h1 (by rw [h2, hp2]), h3⟩
    · rw [hcanon, if_neg hhat, hfst]
      rw [hfst] at hcr2
      have hp1 : prec op ≤ 1 := prec_le_one_of_ne_hat op hop hhat
      refine ⟨?_, ?_, ?_, ?_⟩
      · refine foldLN_wf _ _ hfw ?_
        intro x hx
        obtain ⟨h1, _, h3, _, _⟩ := hlinks x hx
        exact ⟨h1, h3⟩
      · exact foldLN_canonical (prec op) hp1 _ _ hfc hlinks
      · rw [rootP_foldLN (prec op) _ _ hne
          (fun x hx => (hlinks x hx).2.1)]
        rfl
      · rw [foldLN_render (prec op) _ _ hne hfw ?_, hcr2, hrn]
        intro x hx
        obtain ⟨h1, h2, h3, _, _⟩ := hlinks x hx
        exact ⟨h1, h2, h3⟩

/-- Operators are not parentheses. -/
theorem isOpT_ne_paren (s : String) (h : isOpT s = true) : s ≠ "(" ∧ s ≠ ")" := by
  unfold isOpT at h
  simp only [Bool.or_eq_true, decide_eq_true_eq] at h
  rcases h with ((((hc | hc) | hc) | hc) | hc) <;> subst hc <;>
    exact ⟨by decide, by decide⟩

/-- Well-formed leaf tokens are not parentheses. -/
theorem wfLeafB_ne_paren (t : String) (h : wfLeafB t = true) :
    t ≠ "(" ∧ t ≠ ")" := by
  constructor <;> intro hc <;> subst hc <;> exact absurd h (by decide)

/-- One operand token of the shunting loop. -/
theorem shuntAux_operand (t : String) (ts ops out : List String)
    (h1 : isOpT t = false) (h2 : t ≠ "(") (h3 : t ≠ ")") :
    shuntAux (t :: ts) ops out = shuntAux ts ops (out ++ [t]) := by
  rw [shuntAux, if_neg (by simp [h1]), if_neg h2, if_neg h3]

/-- One `(` token of the shunting loop. -/
theorem shuntAux_open (ts ops out : List String) :
    shuntAux ("(" :: ts) ops out = shuntAux ts ("(" :: ops) out := by
  rw [shuntAux, if_neg (by decide), if_pos rfl]

/-- One `)` token of the shunting loop. -/
theorem shuntAux_close (ts ops out : List String) :
    shuntAux (")" :: ts) ops out
      = shuntAux ts (dropParen (popToParen ops).2) (out ++ (popToParen ops).1) := by
  rw [shuntAux, if_neg (by decide), if_neg (by decide), if_pos rfl]

/-- One operator token of the shunting loop. -/
theorem shuntAux_op (t : String) (ts ops out : List String) (h : isOpT t = true) :
    shuntAux (t :: ts) ops out
      = shuntAux ts (t :: (popOps t ops).2) (out ++ (popOps t ops).1) := by
  rw [shuntAux, if_pos h]

/-- Stack condition under which a subtree's consumption never pops into
the ambient operator stack. -/
def popFree (ops : List String) (p : Nat) : Prop :=
  match ops with
  | [] => True
  | top :: _ => top = "(" ∨ prec top < p ∨ (top = "^" ∧ p = 2)

/-- Pop-freedom is upward monotone in the precedence bound. -/
theorem popFree_mono (ops : List String) (p p' : Nat) (hle : p ≤ p')
    (h : popFree ops p) : popFree ops p' := by
  cases ops with
  | nil => trivial
  | cons top rest =>
    rcases h with h | h | h
    · exact Or.inl h
    · exact Or.inr (Or.inl (by omega))
    · by_cases hq : p' = 2
      · exact Or.inr (Or.inr ⟨h.1, hq⟩)
      · refine Or.inr (Or.inl ?_)
        rw [h.1]
        have : prec "^" = 2 := by decide
        omega

/-- A pop-free stack top fails the shunting pop condition. -/
theorem popFree_not_pops (cur top : String) (rest : List String)
    (h : popFree (top :: rest) (prec cur)) : shuntPops cur top = false := by
  rcases h with h | h | h
  · subst h
    simp [shuntPops]
  · have h1 : decide (prec top > prec cur) = false := by
      simp only [decide_eq_false_iff_not]
      omega
    have h2 : decide (prec top = prec cur) = false := by
      simp only [decide_eq_false_iff_not]
      omega
    simp [shuntPops, h1, h2]
  · rw [h.1]
    have h1 : decide (prec "^" > prec cur) = false := by
      simp only [decide_eq_false_iff_not]
      have : prec "^" = 2 := by decide
      omega
    simp [shuntPops, h1, assocOf]

/-- Popping from an all-popping prefix over a pop-free tail. -/
theorem popOps_append (cur : String) :
    ∀ (xs ops : List String), (∀ o ∈ xs, shuntPops cur o = true) →
      popFree ops (prec cur) →
      popOps cur (xs ++ ops) = (xs, ops) := by
  intro xs
  induction xs with
  | nil =>
    intro ops _ hfree
    cases ops with
    | nil => rfl
    | cons top rest =>
      show popOps cur (top :: rest) = ([], top :: rest)
      rw [popOps, if_neg (by simp [popFree_not_pops cur top rest hfree])]
  | cons x xs ih =>
    intro ops hall hfree
    show popOps cur (x :: (xs ++ ops)) = (x :: xs, ops)
    rw [popOps, if_pos (hall x (by simp)), ih ops (fun o ho => hall o (by simp [ho])) hfree]

/-- Popping to the `(` that guards a parenthesis-free prefix. -/
theorem popToParen_append :
    ∀ (xs ops : List String), (∀ o ∈ xs, o ≠ "(") →
      popToParen (xs ++ "(" :: ops) = (xs, "(" :: ops) := by
  intro xs
  induction xs with
  | nil =>
    intro ops _
    show popToParen ("(" :: ops) = ([], "(" :: ops)
    rw [popToParen, if_pos rfl]
  | cons x xs ih =>
    intro ops hall
    show popToParen (x :: (xs ++ "(" :: ops)) = (x :: xs, "(" :: ops)
    rw [popToParen, if_neg (hall x (by simp)), ih ops (fun o ho => hall o (by simp [ho]))]

/-- Pending operator stack left after consuming a canonical tree's tokens
(top of the stack first). -/
def spineOps : ETree → List String
  | .leaf _ => []
  | .node op _ r => if wrapRB op r then [op] else spineOps r ++ [op]

/-- Output tokens emitted while consuming a canonical tree's tokens. -/
def spineOut : ETree → List String
  | .leaf t => [t]
  | .node op l r => if wrapRB op r then pfOf l ++ pfOf r else pfOf l ++ spineOut r

/-- Flushing the pending spine completes the postorder. -/
theorem spineOut_spineOps (T : ETree) : spineOut T ++ spineOps T = pfOf T := by
  induction T with
  | leaf t => rfl
  | node op l r _ ihr =>
    by_cases h : wrapRB op r = true
    · simp [spineOut, spineOps, h, pfOf, List.append_assoc]
    · simp only [spineOut, spineOps, h, Bool.false_eq_true, if_false, pfOf]
      rw [List.append_assoc, ← List.append_assoc (spineOut r), ihr,
        List.append_assoc]

/-- A node's right child that stays unwrapped binds at least as tightly. -/
theorem wrapRB_false_le (op : String) (o : String) (x y : ETree)
    (h : wrapRB op (ETree.node o x y) = false) :
    prec op ≤ rootP (ETree.node o x y) := by
  simp only [wrapRB, isNodeT, Bool.true_and, Bool.or_eq_false_iff,
    decide_eq_false_iff_not] at h
  omega

/-- Spine operators are operators binding at least as tightly as the root. -/
theorem spineOps_spec (T : ETree) (hwf : wfTreeB T = true) :
    ∀ o ∈ spineOps T, isOpT o = true ∧ rootP T ≤ prec o := by
  induction T with
  | leaf t =>
    intro o ho
    simp [spineOps] at ho
  | node op l r _ ihr =>
    simp only [wfTreeB, Bool.and_eq_true] at hwf
    intro o ho
    by_cases h : wrapRB op r = true
    · simp only [spineOps, h, if_true, List.mem_singleton] at ho
      subst ho
      exact ⟨hwf.1.1, le_refl _⟩
    · simp only [spineOps, h, Bool.false_eq_true, if_false, List.mem_append,
        List.mem_singleton] at ho
      rcases ho with ho | ho
      · cases r with
        | leaf t =>
          simp [spineOps] at ho
        | node o2 x y =>
          obtain ⟨h1, h2⟩ := ihr hwf.2 o ho
          refine ⟨h1, ?_⟩
          have := wrapRB_false_le op o2 x y (by simpa using h)
          simp only [rootP] at h2 this ⊢
          omega
      · subst ho
        exact ⟨hwf.1.1, le_refl _⟩

/-- Every spine operator of an unwrapped left child is popped by the
parent operator. -/
theorem spine_pops (op : String) (l : ETree) (hwf : wfTreeB l = true)
    (hle : prec op ≤ rootP l) (hp1 : prec op ≤ 1) :
    ∀ o ∈ spineOps l, shuntPops op o = true := by
  intro o ho
  obtain ⟨h1, h2⟩ := spineOps_spec l hwf o ho
  have hne : o ≠ "(" := (isOpT_ne_paren o h1).1
  have hcase : prec op < prec o ∨ prec op = prec o := by omega
  unfold shuntPops
  rcases hcase with hc | hc
  · simp [hne, hc]
  · have hhat : o ≠ "^" := by
      intro hcon
      subst hcon
      have : prec "^" = 2 := by decide
      omega
    have hassoc : assocOf o = Assoc.left := by
      unfold assocOf
      rw [if_neg hhat]
    simp [hne, hc.symm, hassoc]

/-- Consuming a canonical tree's tokens from a pop-free stack emits its
spine output and leaves its spine operators on top of the stack. -/
theorem shunt_consume :
    ∀ U, wfTreeB U = true → canonicalB U = true →
      ∀ (rest ops out : List String), popFree ops (rootP U) →
        shuntAux (tokensOf U ++ rest) ops out
          = shuntAux rest (spineOps U ++ ops) (out ++ spineOut U) := by
  intro U
  induction U with
  | leaf t =>
    intro hwf _ rest ops out _
    show shuntAux (t :: rest) ops out = _
    rw [shuntAux_operand t rest ops out (wfLeafB_not_op t hwf)
      (wfLeafB_ne_paren t hwf).1 (wfLeafB_ne_paren t hwf).2]
    rfl
  | node op l r ihl ihr =>
    intro hwf hcan rest ops out hfree
    simp only [wfTreeB, Bool.and_eq_true] at hwf
    simp only [canonicalB, Bool.and_eq_true] at hcan
    have hop := hwf.1.1
    have hcanL : canonicalB l = true := hcan.1.1.1
    have hcanR : canonicalB r = true := hcan.1.1.2
    have hhatL : ¬op = "^" ∨ ¬rootP l = 2 := by
      simpa using hcan.1.2
    have hstarR : (¬op = "+" ∧ ¬op = "*") ∨ ¬rootP r = prec op := by
      simpa using hcan.2
    have hfree' : popFree ops (prec op) := hfree
    have hspineNoParen : ∀ x ∈ spineOps l, x ≠ "(" :=
      fun x hx => (isOpT_ne_paren x (spineOps_spec l hwf.1.2 x hx).1).1
    have hspineNoParenR : ∀ x ∈ spineOps r, x ≠ "(" :=
      fun x hx => (isOpT_ne_paren x (spineOps_spec r hwf.2 x hx).1).1
    -- Phase 1: after the left part and the operator, the state is
    -- (op :: ops, out ++ pfOf l).
    have phase1 : shuntAux (tokensOf (ETree.node op l r) ++ rest) ops out
        = shuntAux ((if wrapRB op r then "(" :: tokensOf r ++ [")"]
              else tokensOf r) ++ rest) (op :: ops) (out ++ pfOf l) := by
      have hts : tokensOf (ETree.node op l r) ++ rest
          = (if wrapLB op l then "(" :: tokensOf l ++ [")"] else tokensOf l)
            ++ (op :: ((if wrapRB op r then "(" :: tokensOf r ++ [")"]
                else tokensOf r) ++ rest)) := by
        simp [tokensOf, List.append_assoc]
      rw [hts]
      by_cases hwl : wrapLB op l = true
      · rw [if_pos hwl]
        have hshape : ("(" :: tokensOf l ++ [")"]) ++ (op :: ((if wrapRB op r
              then "(" :: tokensOf r ++ [")"] else tokensOf r) ++ rest))
            = "(" :: (tokensOf l ++ ([")"] ++ (op :: ((if wrapRB op r
              then "(" :: tokensOf r ++ [")"] else tokensOf r) ++ rest)))) := by
          simp [List.append_assoc]
        have hptp := popToParen_append (spineOps l) ops hspineNoParen
        have hd2 : dropParen (popToParen (spineOps l ++ "(" :: ops)).2 = ops := by
          rw [hptp]
          rfl
        have hd1 : (popToParen (spineOps l ++ "(" :: ops)).1 = spineOps l := by
          rw [hptp]
        have hpop := popOps_append op [] ops (by simp) hfree'
        have hpop2 : (popOps op ops).2 = ops := by
          rw [show ops = [] ++ ops from rfl, hpop]
          rfl
        have hpop1 : (popOps op ops).1 = [] := by
          rw [show ops = [] ++ ops from rfl, hpop]
        rw [hshape, shuntAux_open,
          ihl hwf.1.2 hcanL _ ("(" :: ops) out (Or.inl rfl),
          show ([")"] ++ (op :: ((if wrapRB op r then "(" :: tokensOf r ++ [")"]
              else tokensOf r) ++ rest)))
            = ")" :: (op :: ((if wrapRB op r then "(" :: tokensOf r ++ [")"]
              else tokensOf r) ++ rest)) from rfl,
          shuntAux_close, hd2, hd1, shuntAux_op op _ _ _ hop, hpop2, hpop1]
        simp only [List.append_nil, List.append_assoc, spineOut_spineOps]
      · rw [if_neg hwl]
        have hwl' : wrapLB op l = false := Bool.eq_false_iff.mpr hwl
        have hle : prec op ≤ rootP l := by
          cases l with
          | leaf t =>
            have := prec_le_two op
            simp only [rootP]
            omega
          | node o2 x y =>
            by_contra hcon
            have hT : wrapLB op (ETree.node o2 x y) = true := by
              simp only [wrapLB, isNodeT, Bool.true_and]
              exact decide_eq_true (by omega)
            rw [hT] at hwl'
            exact Bool.noConfusion hwl'
        have hall : ∀ o ∈ spineOps l, shuntPops op o = true := by
          intro o ho
          cases l with
          | leaf t => simp [spineOps] at ho
          | node o2 x y =>
            have hp1 : prec op ≤ 1 := by
              by_contra hcon
              have hp2 : prec op = 2 := by
                have := prec_le_two op
                omega
              have hhat : op = "^" := prec_two_hat op hop hp2
              have hr2 : rootP (ETree.node o2 x y) = 2 := by
                have h2 : rootP (ETree.node o2 x y) ≤ 2 := by
                  simp only [rootP]
                  exact prec_le_two o2
                omega
              rcases hhatL with h | h
              · exact h hhat
              · exact h hr2
            exact spine_pops op _ hwf.1.2 hle hp1 o ho
        have hpop := popOps_append op (spineOps l) ops hall hfree'
        have hpop2 : (popOps op (spineOps l ++ ops)).2 = ops := by rw [hpop]
        have hpop1 : (popOps op (spineOps l ++ ops)).1 = spineOps l := by rw [hpop]
        rw [ihl hwf.1.2 hcanL _ ops out
            (popFree_mono ops (prec op) (rootP l) hle hfree'),
          shuntAux_op op _ _ _ hop, hpop2, hpop1]
        simp only [List.append_assoc, spineOut_spineOps]
    rw [phase1]
    -- Phase 2: the right part.
    by_cases hwr : wrapRB op r = true
    · rw [if_pos hwr]
      have hshape : ("(" :: tokensOf r ++ [")"]) ++ rest
          = "(" :: (tokensOf r ++ ([")"] ++ rest)) := by
        simp [List.append_assoc]
      have hptp := popToParen_append (spineOps r) (op :: ops) hspineNoParenR
      have hd2 : dropParen (popToParen (spineOps r ++ "(" :: op :: ops)).2
          = op :: ops := by
        rw [hptp]
        rfl
      have hd1 : (popToParen (spineOps r ++ "(" :: op :: ops)).1 = spineOps r := by
        rw [hptp]
      rw [hshape, shuntAux_open,
        ihr hwf.2 hcanR _ ("(" :: op :: ops) (out ++ pfOf l) (Or.inl rfl),
        show ([")"] ++ rest) = ")" :: rest from rfl,
        shuntAux_close, hd2, hd1,
        show spineOps (ETree.node op l r) = [op] by simp [spineOps, hwr],
        show spineOut (ETree.node op l r) = pfOf l ++ pfOf r by simp [spineOut, hwr]]
      simp only [List.append_assoc, List.singleton_append, spineOut_spineOps]
    · rw [if_neg hwr]
      have hwr' : wrapRB op r = false := Bool.eq_false_iff.mpr hwr
      have hfree2 : popFree (op :: ops) (rootP r) := by
        cases r with
        | leaf t =>
          refine Or.inr (Or.inl ?_)
          have := prec_le_two op
          simp only [rootP]
          omega
        | node o2 x y =>
          have hle2 := wrapRB_false_le op o2 x y hwr'
          by_cases heq : prec op = rootP (ETree.node o2 x y)
          · have hd : decide (rootP (ETree.node o2 x y) = prec op) = true :=
              decide_eq_true heq.symm
            have hplus : ¬op = "+" ∧ ¬op = "*" := by
              rcases hstarR with h | h
              · exact h
              · exact absurd heq.symm h
            have hne2 : ¬op = "/" ∧ ¬op = "-" := by
              constructor <;> intro hcon
              · have hT : wrapRB op (ETree.node o2 x y) = true := by
                  rw [wrapRB_eq_rootP, hd, hcon]
                  simp
                rw [hT] at hwr'
                exact Bool.noConfusion hwr'
              · have hT : wrapRB op (ETree.node o2 x y) = true := by
                  rw [wrapRB_eq_rootP, hd, hcon]
                  simp
                rw [hT] at hwr'
                exact Bool.noConfusion hwr'
            have hhat2 : op = "^" := by
              unfold isOpT at hop
              simp only [Bool.or_eq_true, decide_eq_true_eq] at hop
              rcases hop with ((((hc | hc) | hc) | hc) | hc) <;>
                first
                  | exact hc
                  | exact absurd hc hplus.1
                  | exact absurd hc hplus.2
                  | exact absurd hc hne2.1
                  | exact absurd hc hne2.2
            refine Or.inr (Or.inr ⟨hhat2, ?_⟩)
            have hp2 : prec "^" = 2 := by decide
            rw [hhat2] at heq
            omega
          · exact Or.inr (Or.inl (by omega))
      rw [ihr hwf.2 hcanR rest (op :: ops) (out ++ pfOf l) hfree2,
        show spineOps (ETree.node op l r) = spineOps r ++ [op] by
          simp [spineOps, hwr'],
        show spineOut (ETree.node op l r) = pfOf l ++ spineOut r by
          simp [spineOut, hwr']]
      simp only [List.append_assoc, List.singleton_append]

/-- Converting a canonical well-formed tree's token list yields exactly
its postorder. -/
theorem shunt_tokensOf (U : ETree) (hwf : wfTreeB U = true)
    (hcan : canonicalB U = true) : shunt (tokensOf U) = pfOf U := by
  have h := shunt_consume U hwf hcan [] [] [] trivial
  rw [List.append_nil] at h
  unfold shunt
  rw [h]
  show (spineOut U ++ (spineOps U ++ [])) = pfOf U
  rw [List.append_nil, spineOut_spineOps]

/-- Pending buffer of the tokenizer after a rendered tree's characters. -/
def pend : ETree → String
  | .leaf t => t
  | .node op _ r => if wrapRB op r then "" else pend r

/-- Tokens already emitted after a rendered tree's characters (the pending
buffer still holds the final operand when the tree ends in one). -/
def headToks : ETree → List String
  | .leaf _ => []
  | .node op l r =>
    (if wrapLB op l then "(" :: tokensOf l ++ [")"] else tokensOf l)
      ++ op :: (if wrapRB op r then "(" :: tokensOf r ++ [")"] else headToks r)

/-- Flushing into an extended output. -/
theorem flushTok_append (b : String) (X Y : List String) :
    flushTok b (X ++ Y) = X ++ flushTok b Y := by
  unfold flushTok
  by_cases h : b = "" <;> simp [h]

/-- Flushing is appending the flush of the empty output. -/
theorem flushTok_out (b : String) (Y : List String) :
    flushTok b Y = Y ++ flushTok b [] := by
  unfold flushTok
  by_cases h : b = "" <;> simp [h]

/-- Emitted tokens plus the pending buffer make up the full token list. -/
theorem headToks_pend (T : ETree) (hwf : wfTreeB T = true) :
    headToks T ++ flushTok (pend T) [] = tokensOf T := by
  induction T with
  | leaf t =>
    show [] ++ flushTok t [] = [t]
    rw [List.nil_append]
    unfold flushTok
    rw [if_neg (wfLeafB_ne_empty t hwf)]
    rfl
  | node op l r _ ihr =>
    simp only [wfTreeB, Bool.and_eq_true] at hwf
    by_cases hwr : wrapRB op r = true
    · simp [headToks, tokensOf, pend, hwr, flushTok]
    · have hwr' : wrapRB op r = false := Bool.eq_false_iff.mpr hwr
      simp only [headToks, tokensOf, pend, hwr', Bool.false_eq_true, if_false,
        ite_false, List.append_assoc, List.cons_append]
      rw [ihr hwf.2]

/-- Plain characters are no operators, parentheses or whitespace. -/
theorem plainChar_spec (c : Char) (h : plainChar c = true) :
    isOpChar c = false ∧ c ≠ '(' ∧ c ≠ ')' ∧ isWs c = false := by
  unfold plainChar at h
  simp only [Bool.and_eq_true, Bool.not_eq_true', decide_eq_true_eq, ne_eq] at h
  exact ⟨h.1.1.1, h.1.1.2, h.1.2, h.2⟩

/-- Flushing an empty buffer changes nothing. -/
theorem flushTok_empty (out : List String) : flushTok "" out = out := rfl

/-- An operator token is a single operator character (not a parenthesis,
not whitespace). -/
theorem isOpT_char (op : String) (h : isOpT op = true) :
    ∃ c : Char, op = String.mk [c] ∧ isOpChar c = true ∧ c ≠ '(' ∧ c ≠ ')'
      ∧ isWs c = false := by
  unfold isOpT at h
  simp only [Bool.or_eq_true, decide_eq_true_eq] at h
  rcases h with ((((h | h) | h) | h) | h) <;> subst h
  · exact ⟨'+', rfl, by decide, by decide, by decide, by decide⟩
  · exact ⟨'-', rfl, by decide, by decide, by decide, by decide⟩
  · exact ⟨'*', rfl, by decide, by decide, by decide, by decide⟩
  · exact ⟨'/', rfl, by decide, by decide, by decide, by decide⟩
  · exact ⟨'^', rfl, by decide, by decide, by decide, by decide⟩

/-- Scanning `(`: flush the buffer, emit the parenthesis, keep the state. -/
theorem tokenizeAux_lparen (cs : List Char) (st : TState) (buf : String)
    (out : List String) :
    tokenizeAux ('(' :: cs) st buf out
      = tokenizeAux cs st "" (flushTok buf out ++ ["("]) := rfl

/-- Scanning `)`: flush the buffer, emit the parenthesis, keep the state. -/
theorem tokenizeAux_rparen (cs : List Char) (st : TState) (buf : String)
    (out : List String) :
    tokenizeAux (')' :: cs) st buf out
      = tokenizeAux cs st "" (flushTok buf out ++ [")"]) := rfl

/-- Scanning an operator character: flush, then start an operator buffer. -/
theorem tokenizeAux_opchar (c : Char) (hc : isOpChar c = true)
    (h1 : c ≠ '(') (h2 : c ≠ ')') (cs : List Char) (st : TState) (buf : String)
    (out : List String) :
    tokenizeAux (c :: cs) st buf out
      = tokenizeAux cs
          (if c = '-' && (st = TState.opSt || st = TState.unknown)
           then TState.operand else TState.opSt)
          (String.mk [c]) (flushTok buf out) := by
  conv_lhs => rw [tokenizeAux]
  rw [if_neg (by simp [h1, h2]), if_pos hc]

/-- Scanning a plain character outside the operand state starts a fresh
operand buffer. -/
theorem tokenizeAux_plain_new (c : Char) (hc : plainChar c = true)
    (cs : List Char) (st : TState) (hst : st ≠ TState.operand) (buf : String)
    (out : List String) :
    tokenizeAux (c :: cs) st buf out
      = tokenizeAux cs TState.operand (String.mk [c]) (flushTok buf out) := by
  have h := plainChar_spec c hc
  conv_lhs => rw [tokenizeAux]
  rw [if_neg (by simp [h.2.1, h.2.2.1]), if_neg (by simp [h.1]), if_pos hst]

/-- Scanning a plain character in the operand state extends the buffer. -/
theorem tokenizeAux_plain_push (c : Char) (hc : plainChar c = true)
    (cs : List Char) (buf : String) (out : List String) :
    tokenizeAux (c :: cs) TState.operand buf out
      = tokenizeAux cs TState.operand (buf.push c) out := by
  have h := plainChar_spec c hc
  conv_lhs => rw [tokenizeAux]
  rw [if_neg (by simp [h.2.1, h.2.2.1]), if_neg (by simp [h.1]),
    if_neg (by simp)]

/-- Scanning a run of plain characters in the operand state appends them
all to the buffer. -/
theorem tokenizeAux_word (w : List Char) (hw : w.all plainChar = true) :
    ∀ (cs : List Char) (buf : String) (out : List String),
    tokenizeAux (w ++ cs) TState.operand buf out
      = tokenizeAux cs TState.operand (String.mk (buf.data ++ w)) out := by
  induction w with
  | nil =>
    intro cs buf out
    rw [List.nil_append, List.append_nil]
  | cons c w ih =>
    simp only [List.all_cons, Bool.and_eq_true] at hw
    intro cs buf out
    rw [List.cons_append, tokenizeAux_plain_push c hw.1, ih hw.2]
    simp [String.push, List.append_assoc]

/-- Scanning `-` from the UNKNOWN or OPERATOR state starts an operand
buffer (the unary-minus merge). -/
theorem tokenizeAux_opchar_minus (cs : List Char) (st : TState)
    (hst : st = TState.unknown ∨ st = TState.opSt) (buf : String)
    (out : List String) :
    tokenizeAux ('-' :: cs) st buf out
      = tokenizeAux cs TState.operand (String.mk ['-']) (flushTok buf out) := by
  rw [tokenizeAux_opchar '-' (by decide) (by decide) (by decide)]
  split
  · rfl
  · next hcond =>
    exfalso
    rcases hst with h | h <;> subst h <;> simp at hcond

/-- Scanning an operator character from the OPERAND state starts an
operator buffer. -/
theorem tokenizeAux_opchar_bin (c : Char) (hc : isOpChar c = true)
    (h1 : c ≠ '(') (h2 : c ≠ ')') (cs : List Char) (buf : String)
    (out : List String) :
    tokenizeAux (c :: cs) TState.operand buf out
      = tokenizeAux cs TState.opSt (String.mk [c]) (flushTok buf out) := by
  rw [tokenizeAux_opchar c hc h1 h2]
  split
  · next hcond => simp at hcond
  · rfl

/-- Destructuring a well-formed operand token: a unary minus followed by
plain characters, or a plain character followed by plain characters. -/
theorem wfLeafB_cases (t : String) (h : wfLeafB t = true) :
    (∃ w, t.data = '-' :: w ∧ w.all plainChar = true) ∨
    (∃ c w, t.data = c :: w ∧ plainChar c = true ∧ w.all plainChar = true) := by
  obtain ⟨d⟩ := t
  cases d with
  | nil => exact absurd h (by decide)
  | cons c w =>
    by_cases hc : c = '-'
    · subst hc
      have h' : (!w.isEmpty && w.all plainChar) = true := by
        have heq : wfLeafB (String.mk ('-' :: w))
            = (!w.isEmpty && w.all plainChar) := by
          show (if ('-' : Char) = '-' then !w.isEmpty && w.all plainChar
            else plainChar '-' && w.all plainChar) = _
          rw [if_pos rfl]
        rw [heq] at h
        exact h
      simp only [Bool.and_eq_true] at h'
      exact Or.inl ⟨w, rfl, h'.2⟩
    · have h' : (plainChar c && w.all plainChar) = true := by
        have heq : wfLeafB (String.mk (c :: w))
            = (plainChar c && w.all plainChar) := by
          show (if c = '-' then !w.isEmpty && w.all plainChar
            else plainChar c && w.all plainChar) = _
          rw [if_neg hc]
        rw [heq] at h
        exact h
      simp only [Bool.and_eq_true] at h'
      exact Or.inr ⟨c, w, rfl, h'.1, h'.2⟩

/-- Characters of a possibly parenthesized rendering. -/
theorem mem_wrap_data (b : Prop) [Decidable b] (s : String) (ch : Char)
    (h : ch ∈ (if b then "(" ++ s ++ ")" else s).data) :
    ch = '(' ∨ ch = ')' ∨ ch ∈ s.data := by
  by_cases hb : b
  · rw [if_pos hb] at h
    simp only [String.data_append, List.mem_append,
      show ("(" : String).data = ['('] from rfl,
      show (")" : String).data = [')'] from rfl, List.mem_singleton] at h
    rcases h with (h | h) | h
    · exact Or.inl h
    · exact Or.inr (Or.inr h)
    · exact Or.inr (Or.inl h)
  · rw [if_neg hb] at h
    exact Or.inr (Or.inr h)

/-- A rendered well-formed tree contains no whitespace characters. -/
theorem renderT_no_ws (T : ETree) (hwf : wfTreeB T = true) :
    ∀ ch ∈ (renderT T).data, isWs ch = false := by
  induction T with
  | leaf t =>
    intro ch hch
    replace hch : ch ∈ t.data := hch
    rcases wfLeafB_cases t hwf with ⟨w, hd, hall⟩ | ⟨c, w, hd, hc, hall⟩
    · rw [hd] at hch
      rcases List.mem_cons.mp hch with h | h
      · subst h; decide
      · exact (plainChar_spec ch (List.all_eq_true.mp hall ch h)).2.2.2
    · rw [hd] at hch
      rcases List.mem_cons.mp hch with h | h
      · subst h; exact (plainChar_spec _ hc).2.2.2
      · exact (plainChar_spec ch (List.all_eq_true.mp hall ch h)).2.2.2
  | node op l r ihl ihr =>
    unfold wfTreeB at hwf
    simp only [Bool.and_eq_true] at hwf
    obtain ⟨c, hcop, hcchar, hc1, hc2, hcws⟩ := isOpT_char op hwf.1.1
    intro ch hch
    rw [renderT_node op l r hwf.1.2 hwf.2] at hch
    simp only [String.data_append, List.mem_append] at hch
    rcases hch with (hch | hch) | hch
    · rcases mem_wrap_data _ _ _ hch with h | h | h
      · subst h; decide
      · subst h; decide
      · exact ihl hwf.1.2 ch h
    · rw [hcop] at hch
      have hcc : ch = c := by simpa using hch
      subst hcc
      exact hcws
    · rcases mem_wrap_data _ _ _ hch with h | h | h
      · subst h; decide
      · subst h; decide
      · exact ihr hwf.2 ch h

/-- Scanning a parenthesized rendered subtree from a boundary state emits
its bracketed token list and leaves an empty buffer in the OPERAND state. -/
theorem tok_wrapped (U : ETree) (hwf : wfTreeB U = true)
    (hU : ∀ (cs : List Char) (st : TState),
      (st = TState.unknown ∨ st = TState.opSt) →
      ∀ (buf : String) (out : List String),
      tokenizeAux ((renderT U).data ++ cs) st buf out
        = tokenizeAux cs TState.operand (pend U)
            (flushTok buf out ++ headToks U)) :
    ∀ (cs : List Char) (st : TState),
    (st = TState.unknown ∨ st = TState.opSt) →
    ∀ (buf : String) (out : List String),
    tokenizeAux ('(' :: ((renderT U).data ++ ')' :: cs)) st buf out
      = tokenizeAux cs TState.operand ""
          (flushTok buf out ++ "(" :: tokensOf U ++ [")"]) := by
  intro cs st hst buf out
  rw [tokenizeAux_lparen, hU (')' :: cs) st hst "" _, flushTok_empty,
    tokenizeAux_rparen, flushTok_out, ← headToks_pend U hwf]
  simp only [List.append_assoc, List.cons_append, List.singleton_append,
    List.nil_append]

/-- Rescanning a rendered well-formed tree from a boundary state: its
characters are consumed, its head tokens are emitted after the flushed
buffer, its pending operand stays buffered, and the state ends OPERAND. -/
theorem tok_consume (T : ETree) :
    wfTreeB T = true →
    ∀ (cs : List Char) (st : TState),
    (st = TState.unknown ∨ st = TState.opSt) →
    ∀ (buf : String) (out : List String),
    tokenizeAux ((renderT T).data ++ cs) st buf out
      = tokenizeAux cs TState.operand (pend T)
          (flushTok buf out ++ headToks T) := by
  induction T with
  | leaf t =>
    intro hwf cs st hst buf out
    obtain ⟨d⟩ := t
    rcases wfLeafB_cases _ hwf with ⟨w, hd, hall⟩ | ⟨c, w, hd, hc, hall⟩
    · replace hd : d = '-' :: w := hd
      subst hd
      show tokenizeAux (('-' :: w) ++ cs) st buf out
        = tokenizeAux cs TState.operand (String.mk ('-' :: w))
            (flushTok buf out ++ [])
      rw [List.append_nil, List.cons_append,
        tokenizeAux_opchar_minus _ st hst, tokenizeAux_word w hall]
      rfl
    · replace hd : d = c :: w := hd
      subst hd
      show tokenizeAux ((c :: w) ++ cs) st buf out
        = tokenizeAux cs TState.operand (String.mk (c :: w))
            (flushTok buf out ++ [])
      have hstne : st ≠ TState.operand := by
        rcases hst with h | h <;> subst h <;>
          exact fun hcon => TState.noConfusion hcon
      rw [List.append_nil, List.cons_append,
        tokenizeAux_plain_new c hc _ st hstne, tokenizeAux_word w hall]
      rfl
  | node op l r ihl ihr =>
    intro hwf cs st hst buf out
    unfold wfTreeB at hwf
    simp only [Bool.and_eq_true] at hwf
    obtain ⟨c, hcop, hcchar, hc1, hc2, hcws⟩ := isOpT_char op hwf.1.1
    have hopne : op ≠ "" := isOpT_ne_empty op hwf.1.1
    have hopd : op.data = [c] := by rw [hcop]
    have hflop : ∀ X : List String, flushTok op X = X ++ [op] := by
      intro X
      unfold flushTok
      rw [if_neg hopne]
    have hpo : ("(" : String).data = ['('] := rfl
    have hpc : (")" : String).data = [')'] := rfl
    rw [renderT_node op l r hwf.1.2 hwf.2]
    by_cases hL : wrapLB op l = true
    · by_cases hR : wrapRB op r = true
      · rw [if_pos hL, if_pos hR]
        simp only [String.data_append, hpo, hpc, hopd, List.append_assoc,
          List.cons_append, List.singleton_append, List.nil_append]
        rw [tok_wrapped l hwf.1.2 (ihl hwf.1.2) _ st hst buf out,
          tokenizeAux_opchar_bin c hcchar hc1 hc2, flushTok_empty,
          tok_wrapped r hwf.2 (ihr hwf.2) cs TState.opSt (Or.inr rfl),
          ← hcop, hflop]
        simp only [pend, headToks, hL, hR, if_true, ite_true,
          List.append_assoc, List.cons_append, List.singleton_append,
          List.nil_append]
      · have hRf : wrapRB op r = false := Bool.eq_false_iff.mpr hR
        rw [if_pos hL, if_neg hR]
        simp only [String.data_append, hpo, hpc, hopd, List.append_assoc,
          List.cons_append, List.singleton_append, List.nil_append]
        rw [tok_wrapped l hwf.1.2 (ihl hwf.1.2) _ st hst buf out,
          tokenizeAux_opchar_bin c hcchar hc1 hc2, flushTok_empty,
          ihr hwf.2 cs TState.opSt (Or.inr rfl), ← hcop, hflop]
        simp only [pend, headToks, hL, hRf, if_true, ite_true,
          Bool.false_eq_true, if_false, ite_false,
          List.append_assoc, List.cons_append, List.singleton_append,
          List.nil_append]
    · have hLf : wrapLB op l = false := Bool.eq_false_iff.mpr hL
      by_cases hR : wrapRB op r = true
      · rw [if_neg hL, if_pos hR]
        simp only [String.data_append, hpo, hpc, hopd, List.append_assoc,
          List.cons_append, List.singleton_append, List.nil_append]
        rw [ihl hwf.1.2 _ st hst buf out,
          tokenizeAux_opchar_bin c hcchar hc1 hc2, flushTok_out,
          tok_wrapped r hwf.2 (ihr hwf.2) cs TState.opSt (Or.inr rfl),
          ← hcop, hflop]
        simp only [pend, headToks, hLf, hR, if_true, ite_true,
          Bool.false_eq_true, if_false, ite_false,
          List.append_assoc, List.cons_append, List.singleton_append,
          List.nil_append]
        rw [← headToks_pend l hwf.1.2]
        simp only [List.append_assoc]
      · have hRf : wrapRB op r = false := Bool.eq_false_iff.mpr hR
        rw [if_neg hL, if_neg hR]
        simp only [String.data_append, hpo, hpc, hopd, List.append_assoc,
          List.cons_append, List.singleton_append, List.nil_append]
        rw [ihl hwf.1.2 _ st hst buf out,
          tokenizeAux_opchar_bin c hcchar hc1 hc2, flushTok_out,
          ihr hwf.2 cs TState.opSt (Or.inr rfl), ← hcop, hflop]
        simp only [pend, headToks, hLf, hRf, Bool.false_eq_true, if_false,
          ite_false, List.append_assoc, List.cons_append,
          List.singleton_append, List.nil_append]
        rw [← headToks_pend l hwf.1.2]
        simp only [List.append_assoc]

/-- Re-tokenizing a rendered well-formed tree yields exactly its token
list. -/
theorem tokenize_renderT (T : ETree) (hwf : wfTreeB T = true) :
    tokenize (renderT T) = tokensOf T := by
  unfold tokenize
  rw [List.filter_eq_self.mpr
    (fun a ha => by simpa using renderT_no_ws T hwf a ha)]
  have h := tok_consume T hwf [] TState.unknown (Or.inl rfl) "" []
  rw [List.append_nil] at h
  rw [h]
  show flushTok (pend T) (flushTok "" [] ++ headToks T) = tokensOf T
  rw [flushTok_empty, List.nil_append, flushTok_out, headToks_pend T hwf]

/-- When the stack machine finishes with one entry, `restore` returns its
text within a linear fuel budget. -/
theorem restoreF_of_machine (pf : List String) (hne : ∀ t ∈ pf, t ≠ "")
    (e : Entry) (hm : machineRun [] pf = some [e]) :
    ∀ fuel, 4 * pf.length + 1 ≤ fuel → restoreF fuel pf = some e.text := by
  intro fuel hf
  have h := runRestore_machine fuel pf [] 0 (by simp) (by simp) hne [e] hm
    (by simpa using hf)
  have h2 : runRestore fuel (initState pf)
      = some { entries := [e], idx := 1 } := h
  unfold restoreF
  rw [h2]

/-- The stack machine evaluates a well-formed tree's postorder to the
single entry the tree collapses to. -/
theorem machineRun_entryOf (T : ETree) (hwf : wfTreeB T = true) :
    machineRun [] (pfOf T) = some [entryOf T] := by
  have h := machineRun_pfOf T hwf [] []
  rw [List.append_nil] at h
  rw [h]
  rfl

/-- C3 — Idempotence of `remove_unnecessary_parentheses`: for every valid
expression `e` (one whose postfix sequence parses to a well-formed
expression tree), the first application terminates with some output `s1`,
a second application on `s1` terminates with some output `s2`, and `s2`
re-parses (tokenize then shunt) to the same postfix sequence as `s1`
(indeed the proof returns `s2 = s1`). -/
theorem rup_C3_idempotence (e : String) (T : ETree)
    (hp : parsePostfix (shunt (tokenize e)) = some T)
    (hwf : wfTreeB T = true) :
    ∃ (s1 s2 : String) (N : Nat),
      (∀ fuel, N ≤ fuel → remove_unnecessary_parentheses fuel e = some s1)
      ∧ (∀ fuel, N ≤ fuel →
          remove_unnecessary_parentheses fuel s1 = some s2)
      ∧ shunt (tokenize s2) = shunt (tokenize s1) := by
  obtain ⟨hwU, hcU, _, hrender⟩ := canon_spec T hwf
  have hP : shunt (tokenize e) = pfOf T := parsePostfix_pfOf _ T hp
  have hm : machineRun [] (pfOf T) = some [entryOf T] :=
    machineRun_entryOf T hwf
  have hmU : machineRun [] (pfOf (canon T)) = some [entryOf (canon T)] :=
    machineRun_entryOf (canon T) hwU
  have hshunt2 : shunt (tokenize (renderT T)) = pfOf (canon T) := by
    rw [← hrender, tokenize_renderT (canon T) hwU]
    exact shunt_tokensOf (canon T) hwU hcU
  refine ⟨renderT T, renderT T,
    4 * (pfOf T).length + 4 * (pfOf (canon T)).length + 1, ?_, ?_, rfl⟩
  · intro fuel hf
    unfold remove_unnecessary_parentheses
    rw [hP]
    exact restoreF_of_machine (pfOf T) (pfOf_ne_empty T hwf) (entryOf T) hm
      fuel (by omega)
  · intro fuel hf
    unfold remove_unnecessary_parentheses
    rw [hshunt2,
      restoreF_of_machine (pfOf (canon T)) (pfOf_ne_empty (canon T) hwU)
        (entryOf (canon T)) hmU fuel (by omega)]
    exact congrArg some hrender

/-- Witness for C3 at the expression "1+2*3". -/
theorem rup_C3_idempotence_witness :
    parsePostfix (shunt (tokenize "1+2*3"))
        = some (ETree.node "+" (ETree.leaf "1")
            (ETree.node "*" (ETree.leaf "2") (ETree.leaf "3")))
      ∧ ∃ (s1 s2 : String) (N : Nat),
          (∀ fuel, N ≤ fuel →
            remove_unnecessary_parentheses fuel "1+2*3" = some s1)
          ∧ (∀ fuel, N ≤ fuel →
            remove_unnecessary_parentheses fuel s1 = some s2)
          ∧ shunt (tokenize s2) = shunt (tokenize s1) :=
  ⟨by decide,
   rup_C3_idempotence "1+2*3"
     (ETree.node "+" (ETree.leaf "1")
       (ETree.node "*" (ETree.leaf "2") (ETree.leaf "3")))
     (by decide) (by decide)⟩

end ParenRemoval
